import Mathlib

/-!
Verification of the SAED core traversal engine, shallowly embedded from the
Python sources of the repository:

* `saed/core/llm/parser.py` — answer extraction and class-list parsing;
* `saed/core/executor/run_executor.py` — `DetailedSelector` (retry wrapper,
  single strategy, ensemble strategy, agent assignment) and
  `RunExecutor.execute_column` (breadth-first traversal orchestrator);
* `saed/core/ontology/dag.py` — `OntologyDAG.build_dag` root resolution;
* `saed/core/ontology/cache.py` — `OntologyCache.build_from_dag` depth
  computation and `CachedTree.get_subtree`.

Python dicts (insertion ordered) are modelled as association lists, sets as
lists with membership, floats as rationals, and the external LLM oracle as an
explicit function argument.  Wall-clock data (timestamps, latencies) is not
modelled; `time.sleep` calls are recorded in a ghost log of slept durations,
and oracle invocations in a ghost call log, so that retry/backoff and
memoization behaviour is observable in the embedding.
-/

namespace Saed

/-! ### Association-list helpers (Python `dict` semantics) -/

/-- Python `d[k] = v`: replace the value at the first occurrence of `k`
keeping its position, or append a new binding at the end. -/
def dictInsert {α : Type} (l : List (String × α)) (k : String) (v : α) :
    List (String × α) :=
  match l with
  | [] => [(k, v)]
  | (k', v') :: rest =>
    if k' = k then (k, v) :: rest else (k', v') :: dictInsert rest k v

/-- Python `d.setdefault(k, []).append(x)` (the `defaultdict(list)` /
"insert empty list then append" pattern used for edge maps). -/
def dictAppendVal {α : Type} (l : List (String × List α)) (k : String) (x : α) :
    List (String × List α) :=
  match l with
  | [] => [(k, [x])]
  | (k', vs) :: rest =>
    if k' = k then (k', vs ++ [x]) :: rest else (k', vs) :: dictAppendVal rest k x

/-! ### `saed/core/llm/parser.py` -/

/-- Model of Python `str.strip()`: drop whitespace from both ends.
(Implemented on the character list so that it is kernel-computable.) -/
def pyStrip (s : String) : String :=
  ⟨((s.data.dropWhile Char.isWhitespace).reverse.dropWhile Char.isWhitespace).reverse⟩

/-- Character-level splitter underlying `pySplit`: scans the input, emitting
the current chunk whenever the (non-empty) separator occurs, consuming the
separator via the `skip` counter.  Structurally recursive so that concrete
runs are kernel-computable. -/
def splitChars (sep : List Char) : List Char → Nat → List Char → List (List Char)
  | [], _, cur => [cur.reverse]
  | _ :: rest, skip + 1, cur => splitChars sep rest skip cur
  | c :: rest, 0, cur =>
    if List.isPrefixOf sep (c :: rest) then
      cur.reverse :: splitChars sep rest (sep.length - 1) []
    else
      splitChars sep rest 0 (c :: cur)

/-- Model of Python `str.split(sep)` for a non-empty separator
(also the behaviour of Lean's `String.splitOn`). -/
def pySplit (s : String) (sep : String) : List String :=
  if sep = "" then [s]
  else (splitChars sep.data s.data 0 []).map (fun cs => ⟨cs⟩)

/-- `extract_answer` from `saed/core/llm/parser.py`: the first
`<answer>…</answer>` block (regex `<answer>(.*?)</answer>`, dotall), stripped;
`none` when no such block exists. -/
def extract_answer (response : String) : Option String :=
  match pySplit response "<answer>" with
  | [] => none
  | [_] => none
  | _ :: rest =>
    let afterOpen := String.intercalate "<answer>" rest
    match pySplit afterOpen "</answer>" with
    | [] => none
    | [_] => none
    | content :: _ => some (pyStrip content)

/-- `extract_reasoning` from `saed/core/llm/parser.py`: the first
`<reasoning>…</reasoning>` block, stripped. -/
def extract_reasoning (response : String) : Option String :=
  match pySplit response "<reasoning>" with
  | [] => none
  | [_] => none
  | _ :: rest =>
    let afterOpen := String.intercalate "<reasoning>" rest
    match pySplit afterOpen "</reasoning>" with
    | [] => none
    | [_] => none
    | content :: _ => some (pyStrip content)

/-- `parse_class_list` from `saed/core/llm/parser.py`. -/
def parse_class_list (answer : String) : List String :=
  if answer = "" ∨ answer = "-" then []
  else (pySplit answer ",").map pyStrip

/-! ### LLM call data (`run_executor.py`, dataclasses) -/

/-- `LLMResult`-like payload of one successful `llm.generate` call
(the raw completion text plus pass-through token accounting). -/
structure LLMResult where
  content : String
  input_tokens : Option Nat := none
  output_tokens : Option Nat := none
  total_tokens : Option Nat := none
deriving Repr, DecidableEq

/-- `LLMResponseDetail` (timestamp/latency wall-clock fields are not
modelled). -/
structure LLMResponseDetail where
  raw : String
  reasoning : Option String := none
  answer : String := ""
  input_tokens : Option Nat := none
  output_tokens : Option Nat := none
  total_tokens : Option Nat := none
deriving Repr, DecidableEq

/-- Ghost-instrumented outcome of `DetailedSelector._call_llm_with_retry`:
the response, the number of `llm.generate` attempts actually issued, and the
log of backoff sleeps (in seconds) performed between attempts. -/
structure RetryOutcome where
  response : LLMResponseDetail
  attemptsMade : Nat
  sleeps : List Nat
deriving Repr, DecidableEq

/-- The `for attempt in range(max_retries)` loop of `_call_llm_with_retry`,
structurally recursive on the number of remaining attempts.  `gen` is the
external oracle: attempt index to either a raised exception (`.error`) or an
`LLMResult`.  On success the answer/reasoning are extracted from the raw
completion; when every attempt raises, the loop falls through to the
"All retries failed" response whose `answer` is empty. -/
def callLLMWithRetryGo (maxRetries : Nat) (promptType : String)
    (gen : Nat → Except String LLMResult) :
    Nat → Nat → Option String → Nat → List Nat → RetryOutcome
  | 0, _, lastError, attemptsMade, sleepLog =>
    { response :=
        { raw := "Error after " ++ toString maxRetries ++ " retries: " ++
            (match lastError with | some e => e | none => "None")
          answer := "" }
      attemptsMade := attemptsMade
      sleeps := sleepLog }
  | remaining + 1, attempt, _, attemptsMade, sleepLog =>
    match gen attempt with
    | .ok llmResult =>
      let raw := llmResult.content
      { response :=
          { raw := raw
            reasoning := if promptType = "cot" then extract_reasoning raw else none
            answer := (extract_answer raw).getD ""
            input_tokens := llmResult.input_tokens
            output_tokens := llmResult.output_tokens
            total_tokens := llmResult.total_tokens }
        attemptsMade := attemptsMade + 1
        sleeps := sleepLog }
    | .error e =>
      -- Exponential backoff 2 ** attempt, only when another attempt follows.
      let sleepLog' :=
        if attempt < maxRetries - 1 then sleepLog ++ [2 ^ attempt] else sleepLog
      callLLMWithRetryGo maxRetries promptType gen remaining (attempt + 1)
        (some e) (attemptsMade + 1) sleepLog'

/-- `DetailedSelector._call_llm_with_retry` (`run_executor.py` lines 162–209),
ghost-instrumented. -/
def callLLMWithRetry (maxRetries : Nat) (promptType : String)
    (gen : Nat → Except String LLMResult) : RetryOutcome :=
  callLLMWithRetryGo maxRetries promptType gen maxRetries 0 none 0 []

/-! ### Ensemble (EDM) data (`run_executor.py`, dataclasses) -/

/-- `AgentResultDetail`. -/
structure AgentResultDetail where
  agent_id : Nat
  assigned_classes : List String
  llm_response : Option LLMResponseDetail := none
  voted_classes : List String := []
  status : String := "success"
  error : Option String := none
deriving Repr, DecidableEq

/-- `VoteSummaryDetail`. -/
structure VoteSummaryDetail where
  class_name : String
  vote_count : Nat
  total_agents : Nat
  percentage : ℚ
  selected : Bool
deriving Repr, DecidableEq

/-- `EDMResultDetail`. -/
structure EDMResultDetail where
  consensus_threshold : ℚ
  total_agents : Nat
  votes_summary : List VoteSummaryDetail := []
  agents : List AgentResultDetail := []
deriving Repr, DecidableEq

/-- `SelectionResult` (the single-mode `llm_request` trace is not modelled;
wall-clock free response data is kept). -/
structure SelectionResult where
  selected : List String
  status : String := "completed"
  error : Option String := none
  llm_response : Option LLMResponseDetail := none
  edm_result : Option EDMResultDetail := none
deriving Repr, DecidableEq

/-- `EDMOptions` defaults from `saed/core/config/settings.py`. -/
structure EDMOptions where
  classes_per_agent : Nat := 30
  agents_per_class : Nat := 3
  consensus_threshold : ℚ := 0.8
deriving Repr, DecidableEq

/-! ### `DetailedSelector.select_single` (`run_executor.py` lines 260–304) -/

/-- Single-shot selection.  The oracle `gen` is the per-attempt outcome of
`llm.generate` for this invocation's data. -/
def select_single (maxRetries : Nat) (promptType : String)
    (gen : Nat → Except String LLMResult) (candidates : List String) :
    SelectionResult :=
  if candidates = [] then { selected := [], status := "completed" }
  else
    let out := callLLMWithRetry maxRetries promptType gen
    let response := out.response
    if response.answer = "" ∨ response.answer = "-" then
      { selected := [], status := "completed", llm_response := some response }
    else
      let predicted := parse_class_list response.answer
      let selected := predicted.filter (fun cls => candidates.contains cls)
      { selected := selected, status := "completed", llm_response := some response }

/-! ### Agent assignment (`DetailedSelector._assign_classes_to_agents`,
`run_executor.py` lines 610–630) -/

/-- One class's inner loop: `for agent in assigned_agents:
agents_assignments[agent].append(class_)`. -/
def assignToAgents (assignments : List (List String)) (cls : String)
    (agentIdxs : List Nat) : List (List String) :=
  agentIdxs.foldl (fun acc a => acc.set a ((acc.getD a []) ++ [cls])) assignments

/-- The `for class_ in classes` loop.  Ambient `random.sample` draws are
modelled by the stream `sample : Nat → List Nat` giving the draw made at the
i-th loop iteration. -/
def assignLoop (numAgents avgAgentsPerClass : Nat) (sample : Nat → List Nat) :
    List String → Nat → List (List String) → List (List String)
  | [], _, acc => acc
  | cls :: restCls, i, acc =>
    let chosen :=
      if numAgents < avgAgentsPerClass then List.range numAgents else sample i
    assignLoop numAgents avgAgentsPerClass sample restCls (i + 1)
      (assignToAgents acc cls chosen)

/-- `_assign_classes_to_agents`. -/
def assign_classes_to_agents (classes : List String)
    (numAgents avgAgentsPerClass : Nat) (sample : Nat → List Nat) :
    List (List String) :=
  let assignments :=
    assignLoop numAgents avgAgentsPerClass sample classes 0
      (List.replicate numAgents [])
  if assignments = [] then [classes] else assignments

/-! ### `DetailedSelector.select_edm` (`run_executor.py` lines 352–479) -/

/-- Accumulator of the agent loop: collected agent results, the
`votes_per_class` tally, and the failed-agent counter. -/
structure AgentLoopState where
  agent_results : List AgentResultDetail
  votes_per_class : List (String × Nat)
  failed_agents : Nat
deriving Repr, DecidableEq

/-- `votes_per_class[cls] += 1` on a `defaultdict(int)`. -/
def bumpVote (votes : List (String × Nat)) (cls : String) : List (String × Nat) :=
  match votes.lookup cls with
  | some n => dictInsert votes cls (n + 1)
  | none => votes ++ [(cls, 1)]

/-- Body of the agent loop for one `(agent_id, agent_classes)` pair.
`agentCall` is the outcome of `_call_llm_with_retry` for that agent (an
`.error` models an exception escaping into the `except` branch). -/
def runAgent (agentCall : Nat → List String → Except String LLMResponseDetail)
    (st : AgentLoopState) (p : Nat × List String) : AgentLoopState :=
  let agentId := p.1
  let agentClasses := p.2
  if agentClasses = [] then
    { st with
        agent_results := st.agent_results ++
          [{ agent_id := agentId, assigned_classes := agentClasses,
             voted_classes := [], status := "success" }] }
  else
    match agentCall agentId agentClasses with
    | .ok response =>
      if response.answer ≠ "" ∧ response.answer ≠ "-" then
        let chosen := parse_class_list response.answer
        let validVotes := chosen.filter (fun c => agentClasses.contains c)
        { agent_results := st.agent_results ++
            [{ agent_id := agentId, assigned_classes := agentClasses,
               llm_response := some response, voted_classes := validVotes,
               status := "success" }]
          votes_per_class := validVotes.foldl bumpVote st.votes_per_class
          failed_agents := st.failed_agents }
      else
        { st with
            agent_results := st.agent_results ++
              [{ agent_id := agentId, assigned_classes := agentClasses,
                 llm_response := some response, voted_classes := [],
                 status := "success" }] }
    | .error e =>
      { st with
          agent_results := st.agent_results ++
            [{ agent_id := agentId, assigned_classes := agentClasses,
               status := "failed", error := some e }]
          failed_agents := st.failed_agents + 1 }

/-- Stable descending insertion by vote count (models the stable
`votes_summary.sort(key=vote_count, reverse=True)`). -/
def insertByVotesDesc (v : VoteSummaryDetail) :
    List VoteSummaryDetail → List VoteSummaryDetail
  | [] => [v]
  | w :: ws =>
    if w.vote_count < v.vote_count then v :: w :: ws else w :: insertByVotesDesc v ws

/-- Stable sort by descending vote count. -/
def sortByVotesDesc (l : List VoteSummaryDetail) : List VoteSummaryDetail :=
  l.foldl (fun acc v => insertByVotesDesc v acc) []

/-- Ensemble decision making.  `sample` models the ambient random source of
agent assignment; `agentCall` the per-agent oracle call. -/
def select_edm (opts : EDMOptions) (sample : Nat → List Nat)
    (agentCall : Nat → List String → Except String LLMResponseDetail)
    (candidates : List String) : SelectionResult :=
  if candidates = [] then { selected := [], status := "completed" }
  else
    let numClasses := candidates.length
    let numAgents := max opts.agents_per_class
      (numClasses * opts.agents_per_class / opts.classes_per_agent + 1)
    let assignments :=
      assign_classes_to_agents candidates numAgents opts.agents_per_class sample
    let agentsThatSawClass : String → Nat := fun cls =>
      assignments.countP (fun agentClasses => agentClasses.contains cls)
    let finalState := (List.enumFrom 1 assignments).foldl (runAgent agentCall)
      { agent_results := [], votes_per_class := [], failed_agents := 0 }
    let votesOf : String → Nat := fun cls =>
      (finalState.votes_per_class.lookup cls).getD 0
    let votesSummary := sortByVotesDesc <| candidates.filterMap (fun cls =>
      let seenBy := agentsThatSawClass cls
      if 0 < seenBy then
        let votes := votesOf cls
        let percentage : ℚ := (votes : ℚ) / (seenBy : ℚ)
        some { class_name := cls, vote_count := votes, total_agents := seenBy,
               percentage := percentage,
               selected := decide (opts.consensus_threshold ≤ percentage ∧ 0 < votes) }
      else none)
    let selectedClasses := candidates.filter (fun cls =>
      decide (0 < agentsThatSawClass cls ∧
        opts.consensus_threshold ≤ (votesOf cls : ℚ) / (agentsThatSawClass cls : ℚ) ∧
        0 < votesOf cls))
    let failedAgents := finalState.failed_agents
    let totalAgents := assignments.length
    let failedMajority :=
      decide ((totalAgents : ℚ) * (1 / 2) < (failedAgents : ℚ))
    { selected := selectedClasses
      status := if failedMajority then "failed" else "completed"
      error := if failedMajority then
          some (toString failedAgents ++ "/" ++ toString totalAgents ++ " agents failed")
        else none
      edm_result := some
        { consensus_threshold := opts.consensus_threshold
          total_agents := totalAgents
          votes_summary := votesSummary
          agents := finalState.agent_results } }

/-- The per-agent outcome record of `select_edm`'s agent loop, as a function
of one `(agent_id, agent_classes)` pair (the loop body `runAgent` appends
exactly this record). -/
def agentRecord (agentCall : Nat → List String → Except String LLMResponseDetail)
    (p : Nat × List String) : AgentResultDetail :=
  if p.2 = [] then
    { agent_id := p.1, assigned_classes := p.2, voted_classes := [],
      status := "success" }
  else
    match agentCall p.1 p.2 with
    | .ok response =>
      if response.answer ≠ "" ∧ response.answer ≠ "-" then
        { agent_id := p.1, assigned_classes := p.2, llm_response := some response,
          voted_classes := (parse_class_list response.answer).filter
            (fun c => p.2.contains c),
          status := "success" }
      else
        { agent_id := p.1, assigned_classes := p.2, llm_response := some response,
          voted_classes := [], status := "success" }
    | .error e =>
      { agent_id := p.1, assigned_classes := p.2, status := "failed",
        error := some e }

/-- The agents recorded in a selection's `edm_result` (empty when the result
carries none). -/
def edmAgents (r : SelectionResult) : List AgentResultDetail :=
  match r.edm_result with
  | some E => E.agents
  | none => []

/-- `seen_by`: how many recorded agents were assigned the candidate. -/
def seenBy (r : SelectionResult) (c : String) : Nat :=
  (edmAgents r).countP (fun a => a.assigned_classes.contains c)

/-- Vote occurrences for a candidate across the recorded agents (an agent
listing the candidate several times contributes its multiplicity). -/
def votesFor (r : SelectionResult) (c : String) : Nat :=
  ((edmAgents r).map (fun a => a.voted_classes.count c)).sum

/-- `votes_per_class[c]` of the tally map (0 when absent). -/
def votesCount (votes : List (String × Nat)) (c : String) : Nat :=
  (votes.lookup c).getD 0

/-! ### `saed/core/ontology/dag.py` -/

/-- `OntologyClass` (`saed/core/ontology/classes.py`); `build_dag` always
sets `name` to the owlready2 class name, so it is modelled as a string. -/
structure OntologyClass where
  url : String
  name : String
  label : Option String := none
  comment : Option String := none
deriving Repr, DecidableEq

/-- Post-construction state of `OntologyDAG`: `nodes`, the parent→children
map `edges_subclassof`, the child→parents map `edges`, and the root URL. -/
structure OntologyDAG where
  nodes : List (String × OntologyClass)
  edges_subclassof : List (String × List String)
  edges : List (String × List String)
  root : String
deriving Repr, DecidableEq

/-- A parent entry of a parsed class's `is_a` list: either an object with an
`iri` attribute (a class, or `owl:Thing`), or one without (a restriction). -/
inductive ParentRef where
  | noIri
  | withIri (iri : String)
deriving Repr, DecidableEq

/-- One parsed class definition, as supplied by the external `owlready2`
parse: iri, name, first label/comment, and the `is_a` parent list. -/
structure RawClass where
  url : String
  name : String
  label : Option String := none
  comment : Option String := none
  parents : List ParentRef := []
deriving Repr, DecidableEq

/-- `owlready2.Thing.iri`. -/
def thingIri : String := "http://www.w3.org/2002/07/owl#Thing"

/-- The virtual-root node created by `build_dag`. -/
def thingNode : OntologyClass :=
  { url := thingIri, name := "Thing", label := some "Thing",
    comment := some "Root class (owl:Thing)" }

/-- The per-class body of `build_dag`'s main loop: register the node, then
record `parent → child` edges for each parent with an `iri`, skipping
self-references. -/
def buildDagStep (st : List (String × OntologyClass) × List (String × List String))
    (cls : RawClass) : List (String × OntologyClass) × List (String × List String) :=
  let nodes := dictInsert st.1 cls.url
    { url := cls.url, name := cls.name, label := cls.label, comment := cls.comment }
  let edges := cls.parents.foldl
    (fun edges p =>
      match p with
      | ParentRef.noIri => edges
      | ParentRef.withIri piri =>
        if piri = cls.url then edges else dictAppendVal edges piri cls.url)
    st.2
  (nodes, edges)

/-- `OntologyDAG.build_dag` (`dag.py` lines 49–127), starting from the parsed
class list: nodes and subclass edges, reverse edges, and root resolution. -/
def build_dag (classes : List RawClass) : OntologyDAG :=
  let st := classes.foldl buildDagStep ([], [])
  let nodes := st.1
  let edges_subclassof := st.2
  -- self.edges = {k: [] for k in self.nodes}; then child → parent appends
  let edgesRev := edges_subclassof.foldl
    (fun acc pe => pe.2.foldl
      (fun acc child =>
        if (acc.lookup child).isSome then dictAppendVal acc child pe.1 else acc)
      acc)
    (nodes.map (fun e => (e.1, ([] : List String))))
  let allChildren := edges_subclassof.foldl (fun acc e => acc ++ e.2) []
  let rootCandidates :=
    (nodes.map (fun e => e.1)).filter (fun url => decide (url ∉ allChildren))
  match rootCandidates with
  | [r] =>
    { nodes := nodes, edges_subclassof := edges_subclassof, edges := edgesRev,
      root := r }
  | [] =>
    -- No root candidates: owl:Thing is the root; add its node if absent.
    { nodes := if (nodes.lookup thingIri).isSome then nodes
        else dictInsert nodes thingIri thingNode
      edges_subclassof := edges_subclassof, edges := edgesRev, root := thingIri }
  | rs =>
    -- Multiple roots: owl:Thing is the virtual root with the candidates
    -- as its direct children.
    { nodes := dictInsert nodes thingIri thingNode
      edges_subclassof := dictInsert edges_subclassof thingIri rs
      edges := edgesRev, root := thingIri }

/-! ### `saed/core/ontology/cache.py` -/

/-- `CachedNode` (metadata-free part of the cached tree). -/
structure CachedNode where
  url : String
  name : String
  label : Option String := none
  comment : Option String := none
  children : List String := []
  depth : Nat := 0
  has_more : Bool := false
deriving Repr, DecidableEq

/-- `CachedTree` (the free-form `metadata` dict is not modelled). -/
structure CachedTree where
  root : String
  nodes : List (String × CachedNode)
deriving Repr, DecidableEq

/-- Largest children-list length of an edge map (termination bound for the
breadth-first loops). -/
def maxChildLen (edges : List (String × List String)) : Nat :=
  (edges.map (fun e => e.2.length)).foldr max 0

/-- Number of map keys not yet visited (termination bound). -/
def unvisitedKeyCount (keys : List String) (visited : List String) : Nat :=
  (keys.filter (fun k => decide (k ∉ visited))).length

/-! Termination support for the breadth-first loops below. -/

theorem lookup_mem {α : Type} {k : String} {v : α} :
    ∀ {l : List (String × α)}, l.lookup k = some v → (k, v) ∈ l := by
  intro l h
  induction l with
  | nil => simp [List.lookup] at h
  | cons e rest ih =>
    obtain ⟨k', v'⟩ := e
    rw [List.lookup] at h
    by_cases hk : k = k'
    · subst hk
      simp only [beq_self_eq_true] at h
      injection h with h
      subst h
      exact List.mem_cons_self _ _
    · rw [beq_false_of_ne hk] at h
      exact List.mem_cons_of_mem _ (ih h)

theorem lookup_eq_none_of_not_mem_keys {α : Type} {k : String} :
    ∀ {l : List (String × α)}, k ∉ l.map (fun e => e.1) → l.lookup k = none := by
  intro l h
  induction l with
  | nil => rfl
  | cons e rest ih =>
    obtain ⟨k', v'⟩ := e
    simp only [List.map_cons, List.mem_cons] at h
    push_neg at h
    rw [List.lookup, beq_false_of_ne h.1]
    exact ih h.2

theorem le_foldr_max {α : Type} (f : α → Nat) (b : Nat) :
    ∀ {l : List α} {x : α}, x ∈ l → f x ≤ (l.map f).foldr max b := by
  intro l
  induction l with
  | nil => intro x hx; cases hx
  | cons a rest ih =>
    intro x hx
    rcases List.mem_cons.mp hx with h | h
    · subst h; exact le_max_left _ _
    · exact le_trans (ih h) (le_max_right _ _)

theorem getD_lookup_len_le (edges : List (String × List String)) (u : String) :
    ((edges.lookup u).getD []).length ≤ maxChildLen edges := by
  cases h : edges.lookup u with
  | none => simp
  | some vs =>
    simpa [maxChildLen] using le_foldr_max (fun e => e.2.length) 0 (lookup_mem h)

theorem length_filter_mono {α : Type} (p q : α → Bool)
    (h : ∀ x, p x = true → q x = true) :
    ∀ (l : List α), (l.filter p).length ≤ (l.filter q).length := by
  intro l
  induction l with
  | nil => simp
  | cons a rest ih =>
    simp only [List.filter]
    cases hp : p a
    · cases q a
      · exact ih
      · simpa using Nat.le_succ_of_le ih
    · rw [h a hp]
      simpa using ih

theorem unvisitedKeyCount_cons_le (keys visited : List String) (u : String) :
    unvisitedKeyCount keys (u :: visited) ≤ unvisitedKeyCount keys visited := by
  apply length_filter_mono
  intro x hx
  simp only [decide_eq_true_eq, List.mem_cons] at hx ⊢
  intro hmem
  exact hx (Or.inr hmem)

theorem unvisitedKeyCount_cons_lt (keys visited : List String) (u : String)
    (hk : u ∈ keys) (hnv : u ∉ visited) :
    unvisitedKeyCount keys (u :: visited) < unvisitedKeyCount keys visited := by
  induction keys with
  | nil => cases hk
  | cons k ks ih =>
    unfold unvisitedKeyCount
    simp only [List.filter]
    by_cases hku : k = u
    · subst hku
      have h1 : decide (k ∉ k :: visited) = false := by simp
      have h2 : decide (k ∉ visited) = true := by simpa using hnv
      rw [h1, h2]
      have := unvisitedKeyCount_cons_le ks visited k
      unfold unvisitedKeyCount at this
      simpa using Nat.lt_succ_of_le this
    · have h3 : (decide (k ∉ u :: visited)) = (decide (k ∉ visited)) := by
        by_cases hv : k ∈ visited
        · simp [hv]
        · simp [hv, List.mem_cons, hku]
      have hks : u ∈ ks := by
        rcases List.mem_cons.mp hk with h | h
        · exact absurd h.symm hku
        · exact h
      have := ih hks
      unfold unvisitedKeyCount at this
      rw [h3]
      cases decide (k ∉ visited)
      · simpa using this
      · simpa using Nat.succ_lt_succ this

theorem unvisitedKeyCount_cons_eq (keys visited : List String) (u : String)
    (hk : u ∉ keys) :
    unvisitedKeyCount keys (u :: visited) = unvisitedKeyCount keys visited := by
  unfold unvisitedKeyCount
  congr 1
  apply List.filter_congr
  intro x hx
  have hxu : x ≠ u := by rintro rfl; exact hk hx
  by_cases hv : x ∈ visited
  · simp [hv]
  · simp [hv, List.mem_cons, hxu]

/-- The depth-precomputation BFS of `OntologyCache.build_from_dag`
(`cache.py` lines 252–267): queue of `(url, depth)`, `visited` set, and the
`depths` insertion-ordered dict. -/
def bfsDepthsLoop (edges : List (String × List String)) :
    List (String × Nat) → List String → List (String × Nat) → List (String × Nat)
  | [], _, depths => depths
  | (url, depth) :: rest, visited, depths =>
    if url ∈ visited then bfsDepthsLoop edges rest visited depths
    else
      let visited' := url :: visited
      let depths' := depths ++ [(url, depth)]
      let children := (edges.lookup url).getD []
      let newItems := (children.filter (fun c => decide (c ∉ visited'))).map
        (fun c => (c, depth + 1))
      bfsDepthsLoop edges (rest ++ newItems) visited' depths'
termination_by queue visited _ =>
  (maxChildLen edges + 1) * unvisitedKeyCount (edges.map (fun e => e.1)) visited +
    queue.length
decreasing_by
· simp only [List.length_cons]
  omega
· rename_i hnv
  simp only [List.length_append, List.length_cons, List.length_map]
  by_cases hk : url ∈ edges.map (fun e => e.1)
  · have hlt := unvisitedKeyCount_cons_lt (edges.map (fun e => e.1)) visited url hk hnv
    have hfl : ((((edges.lookup url).getD []).filter
        (fun c => decide (c ∉ url :: visited))).length) ≤ maxChildLen edges :=
      le_trans (List.length_filter_le _ _) (getD_lookup_len_le edges url)
    set K := maxChildLen edges + 1
    set U := unvisitedKeyCount (edges.map (fun e => e.1)) visited
    set U' := unvisitedKeyCount (edges.map (fun e => e.1)) (url :: visited)
    have hmul : K * U' + K ≤ K * U := by
      have : K * (U' + 1) ≤ K * U := Nat.mul_le_mul_left K hlt
      simpa [Nat.mul_add] using this
    omega
  · have heq := unvisitedKeyCount_cons_eq (edges.map (fun e => e.1)) visited url hk
    have hnone : edges.lookup url = none := lookup_eq_none_of_not_mem_keys hk
    rw [heq, hnone]
    simp

theorem mem_keys_of_lookup_some {α : Type} {l : List (String × α)} {k : String}
    {v : α} (h : l.lookup k = some v) : k ∈ l.map (fun e => e.1) :=
  List.mem_map.mpr ⟨(k, v), lookup_mem h, rfl⟩

theorem lookup_isSome_of_mem_keys {α : Type} {l : List (String × α)} {k : String}
    (h : k ∈ l.map (fun e => e.1)) : (l.lookup k).isSome := by
  induction l with
  | nil => simp at h
  | cons e rest ih =>
    obtain ⟨k', v'⟩ := e
    simp only [List.map_cons, List.mem_cons] at h
    rw [List.lookup]
    by_cases hk : k = k'
    · subst hk
      simp [beq_self_eq_true]
    · rw [beq_false_of_ne hk]
      exact ih (h.resolve_left hk)

/-- `OntologyCache.build_from_dag` (`cache.py` lines 238–297): run the depth
BFS from the dag's root, then project every dag node to a `CachedNode` with
`depth = depths.get(url, 0)` and its subclass children. -/
def build_from_dag (dag : OntologyDAG) : CachedTree :=
  let depths := bfsDepthsLoop dag.edges_subclassof [(dag.root, 0)] [] []
  { root := dag.root
    nodes := dag.nodes.map (fun e =>
      (e.1,
        { url := e.1, name := e.2.name, label := e.2.label, comment := e.2.comment,
          children := (dag.edges_subclassof.lookup e.1).getD []
          depth := (depths.lookup e.1).getD 0
          has_more := false })) }

/-- Largest children-list length among cached nodes (termination bound). -/
def maxCachedChildLen (nodes : List (String × CachedNode)) : Nat :=
  (nodes.map (fun e => e.2.children.length)).foldr max 0

theorem lookup_children_len_le {nodes : List (String × CachedNode)} {u : String}
    {node : CachedNode} (h : nodes.lookup u = some node) :
    node.children.length ≤ maxCachedChildLen nodes := by
  simpa [maxCachedChildLen] using
    le_foldr_max (fun e => e.2.children.length) 0 (lookup_mem h)

/-- The BFS of `CachedTree.get_subtree` (`cache.py` lines 101–155): collect
nodes up to `maxDepth` relative levels, truncating children at the limit and
computing the `has_more` pre-fetch flag. -/
def subtreeLoop (tree : CachedTree) (maxDepth : Option Nat) :
    List (String × Nat) → List String → List (String × CachedNode) →
      List (String × CachedNode)
  | [], _, result => result
  | (url, relDepth) :: rest, visited, result =>
    if url ∈ visited then subtreeLoop tree maxDepth rest visited result
    else
      let visited' := url :: visited
      if hnode : (tree.nodes.lookup url).isSome then
        let node := (tree.nodes.lookup url).get hnode
        -- at_depth_limit = max_depth is not None and relative_depth >= max_depth
        if (match maxDepth with
            | none => false
            | some d => decide (d ≤ relDepth)) then
          -- At the depth limit: keep the node without children and flag
          -- `has_more` when children were elided.
          subtreeLoop tree maxDepth rest visited'
            (result ++ [(url,
              { url := node.url, name := node.name, label := node.label,
                comment := node.comment, children := [], depth := node.depth,
                has_more := decide (0 < node.children.length) })])
        else
          -- Enqueue unvisited children; `has_more` is set when the bound
          -- would cut one level further down a child that has children.
          let newItems := (node.children.filter (fun c => decide (c ∉ visited'))).map
            (fun c => (c, relDepth + 1))
          let hasMore := match maxDepth with
            | none => false
            | some d => node.children.any (fun cu =>
                match tree.nodes.lookup cu with
                | some child => decide (0 < child.children.length) &&
                    decide (d ≤ relDepth + 1)
                | none => false)
          subtreeLoop tree maxDepth (rest ++ newItems) visited'
            (result ++ [(url,
              { url := node.url, name := node.name, label := node.label,
                comment := node.comment, children := node.children,
                depth := node.depth, has_more := hasMore })])
      else
        -- `node is None`: nothing recorded for this URL.
        subtreeLoop tree maxDepth rest visited' result
termination_by queue visited result =>
  (maxCachedChildLen tree.nodes + 1) *
      unvisitedKeyCount (tree.nodes.map (fun e => e.1)) visited +
    queue.length
decreasing_by
· simp only [List.length_cons]
  omega
· rename_i hnv
  have hle := unvisitedKeyCount_cons_le (tree.nodes.map (fun e => e.1)) visited url
  have := Nat.mul_le_mul_left (maxCachedChildLen tree.nodes + 1) hle
  simp only [List.length_cons]
  omega
· rename_i hnv hncond
  obtain ⟨node0, hnode0⟩ := Option.isSome_iff_exists.mp hnode
  have hk : url ∈ tree.nodes.map (fun e => e.1) := mem_keys_of_lookup_some hnode0
  have hlt := unvisitedKeyCount_cons_lt (tree.nodes.map (fun e => e.1)) visited url hk hnv
  have hfl : ((((tree.nodes.lookup url).get hnode).children.filter
      (fun c => decide (c ∉ url :: visited))).length) ≤ maxCachedChildLen tree.nodes := by
    have hget : (tree.nodes.lookup url).get hnode = node0 := by
      simp only [hnode0, Option.get_some]
    rw [hget]
    exact le_trans (List.length_filter_le _ _) (lookup_children_len_le hnode0)
  set K := maxCachedChildLen tree.nodes + 1
  have hmul : K * unvisitedKeyCount (tree.nodes.map (fun e => e.1)) (url :: visited) + K ≤
      K * unvisitedKeyCount (tree.nodes.map (fun e => e.1)) visited := by
    have : K * (unvisitedKeyCount (tree.nodes.map (fun e => e.1)) (url :: visited) + 1) ≤
        K * unvisitedKeyCount (tree.nodes.map (fun e => e.1)) visited :=
      Nat.mul_le_mul_left K hlt
    simpa [Nat.mul_add] using this
  simp only [List.length_append, List.length_cons, List.length_map]
  omega
· rename_i hnv
  have hle := unvisitedKeyCount_cons_le (tree.nodes.map (fun e => e.1)) visited url
  have := Nat.mul_le_mul_left (maxCachedChildLen tree.nodes + 1) hle
  simp only [List.length_cons]
  omega

/-- One-step unfolding of `subtreeLoop` on the empty queue. -/
theorem subtreeLoop_nil (tree : CachedTree) (maxDepth : Option Nat)
    (visited : List String) (result : List (String × CachedNode)) :
    subtreeLoop tree maxDepth [] visited result = result := by
  conv_lhs => rw [subtreeLoop.eq_def]

/-- One-step unfolding of `subtreeLoop` on a non-empty queue. -/
theorem subtreeLoop_cons (tree : CachedTree) (maxDepth : Option Nat)
    (url : String) (relDepth : Nat) (rest : List (String × Nat))
    (visited : List String) (result : List (String × CachedNode)) :
    subtreeLoop tree maxDepth ((url, relDepth) :: rest) visited result =
      (if url ∈ visited then subtreeLoop tree maxDepth rest visited result
      else
        let visited' := url :: visited
        if hnode : (tree.nodes.lookup url).isSome then
          let node := (tree.nodes.lookup url).get hnode
          if (match maxDepth with
              | none => false
              | some d => decide (d ≤ relDepth)) then
            subtreeLoop tree maxDepth rest visited'
              (result ++ [(url,
                { url := node.url, name := node.name, label := node.label,
                  comment := node.comment, children := [], depth := node.depth,
                  has_more := decide (0 < node.children.length) })])
          else
            let newItems := (node.children.filter
              (fun c => decide (c ∉ visited'))).map (fun c => (c, relDepth + 1))
            let hasMore := match maxDepth with
              | none => false
              | some d => node.children.any (fun cu =>
                  match tree.nodes.lookup cu with
                  | some child => decide (0 < child.children.length) &&
                      decide (d ≤ relDepth + 1)
                  | none => false)
            subtreeLoop tree maxDepth (rest ++ newItems) visited'
              (result ++ [(url,
                { url := node.url, name := node.name, label := node.label,
                  comment := node.comment, children := node.children,
                  depth := node.depth, has_more := hasMore })])
        else
          subtreeLoop tree maxDepth rest visited' result) := by
  conv_lhs => rw [subtreeLoop.eq_def]

/-- `CachedTree.get_subtree` (`cache.py` lines 82–166).  `rootUrl = some ""`
models the falsy empty string (`root_url or self.root`). -/
def get_subtree (tree : CachedTree) (rootUrl : Option String)
    (maxDepth : Option Nat) : CachedTree :=
  let start0 := match rootUrl with
    | some s => if s = "" then tree.root else s
    | none => tree.root
  -- Handle a start node that is neither a known node nor the tree root.
  let startUrl :=
    if (tree.nodes.lookup start0) = none ∧ start0 ≠ tree.root then tree.root
    else start0
  { root := startUrl
    nodes := subtreeLoop tree maxDepth [(startUrl, 0)] [] [] }

/-! ### `RunExecutor.execute_column` (`run_executor.py` lines 712–839) -/

/-- `BFSStepDetail` (the `llm_request` trace is not modelled). -/
structure BFSStepDetail where
  level : Nat
  parent : String
  candidates : List String
  selected : List String
  status : String := "completed"
  error : Option String := none
  llm_response : Option LLMResponseDetail := none
  edm_result : Option EDMResultDetail := none
deriving Repr, DecidableEq

/-- `ColumnResultDetail`. -/
structure ColumnResultDetail where
  column_name : String
  status : String := "completed"
  steps : List BFSStepDetail := []
  final_paths : List (List String) := []
  error : Option String := none
deriving Repr, DecidableEq

/-- One entry of the BFS queue: `(level, parent_url, path_so_far)`. -/
structure QItem where
  level : Nat
  parentUrl : String
  path : List String
deriving Repr, DecidableEq

/-- Mutable state of one `execute_column` run: the step log, the collected
terminal paths, the per-run `selection_cache`, and a ghost log of the parent
URLs for which the selector was actually invoked (call-count
instrumentation). -/
structure BFSState where
  steps : List BFSStepDetail := []
  finalPaths : List (List String) := []
  cache : List (String × SelectionResult) := []
  callLog : List String := []
deriving Repr, DecidableEq

/-- `ontology_dag.edges_subclassof.get(parent_url, [])`. -/
def childrenUrlsOf (dag : OntologyDAG) (parentUrl : String) : List String :=
  (dag.edges_subclassof.lookup parentUrl).getD []

/-- Candidate class names: the names of the resolvable children nodes. -/
def candidateNamesOf (dag : OntologyDAG) (parentUrl : String) : List String :=
  (childrenUrlsOf dag parentUrl).filterMap
    (fun url => (dag.nodes.lookup url).map (fun node => node.name))

/-- `if current_path: final_paths.append(current_path)`. -/
def recordTerminal (st : BFSState) (path : List String) : BFSState :=
  if path = [] then st else { st with finalPaths := st.finalPaths ++ [path] }

/-- The memoized selection: reuse the cached `SelectionResult` when the
parent URL was already decided in this run, otherwise invoke the selector
and cache (and ghost-log) the outcome. -/
def memoSelect (select : List String → SelectionResult) (candidates : List String)
    (parentUrl : String) (st : BFSState) : SelectionResult × BFSState :=
  match st.cache.lookup parentUrl with
  | some r => (r, st)
  | none =>
    let r := select candidates
    (r, { st with cache := st.cache ++ [(parentUrl, r)]
                  callLog := st.callLog ++ [parentUrl] })

/-- The selection step for one dequeued item: memoized selection followed by
appending the `BFSStepDetail` built from the outcome. -/
def stepState (dag : OntologyDAG) (select : List String → SelectionResult)
    (item : QItem) (st : BFSState) : SelectionResult × BFSState :=
  let parentUrl := item.parentUrl
  let parentName := match dag.nodes.lookup parentUrl with
    | some node => node.name
    | none => parentUrl
  let candidates := candidateNamesOf dag parentUrl
  let rc := memoSelect select candidates parentUrl st
  let result := rc.1
  let st1 := rc.2
  let step : BFSStepDetail :=
    { level := item.level, parent := parentName, candidates := candidates,
      selected := result.selected, status := result.status, error := result.error,
      llm_response := result.llm_response, edm_result := result.edm_result }
  (result, { st1 with steps := st1.steps ++ [step] })

/-- Enqueue `(level+1, child_url, path + [name])` for each selected name
whose URL resolves among the children (first child whose node name
matches). -/
def enqueueItems (dag : OntologyDAG) (item : QItem) (childrenUrls : List String)
    (selected : List String) : List QItem :=
  selected.filterMap (fun selName =>
    (childrenUrls.find? (fun url =>
      match dag.nodes.lookup url with
      | some node => node.name == selName
      | none => false)).map
      (fun url =>
        { level := item.level + 1, parentUrl := url,
          path := item.path ++ [selName] }))

/-- Largest possible selector answer over the graph's expandable parents
(termination bound). -/
def selBound (dag : OntologyDAG) (select : List String → SelectionResult) : Nat :=
  (dag.edges_subclassof.map
    (fun e => (select (candidateNamesOf dag e.1)).selected.length)).foldr max 0

/-- Termination bound over the current memo cache. -/
def cacheBound (dag : OntologyDAG) (select : List String → SelectionResult)
    (cache : List (String × SelectionResult)) : Nat :=
  (cache.map (fun e => e.2.selected.length)).foldr max (selBound dag select)

/-- Exponential queue measure: items at smaller levels weigh exponentially
more, with base `w + 1` bounding the branching of one expansion. -/
def queueWeight (w maxDepth : Nat) (q : List QItem) : Nat :=
  (q.map (fun i => (w + 1) ^ (maxDepth - i.level))).sum

/-! Termination support for `bfsLoop`. -/

theorem base_le_foldr_max {α : Type} (f : α → Nat) (b : Nat) :
    ∀ (l : List α), b ≤ (l.map f).foldr max b := by
  intro l
  induction l with
  | nil => simp
  | cons a rest ih => exact le_trans ih (le_max_right _ _)

theorem foldr_max_pull (x b : Nat) :
    ∀ (l : List Nat), l.foldr max (max x b) = max x (l.foldr max b) := by
  intro l
  induction l with
  | nil => rfl
  | cons a rest ih =>
    simp only [List.foldr_cons, ih]
    rw [max_left_comm]

theorem selBound_key_le (dag : OntologyDAG) (select : List String → SelectionResult)
    {p : String} (h : childrenUrlsOf dag p ≠ []) :
    (select (candidateNamesOf dag p)).selected.length ≤ selBound dag select := by
  rcases hl : dag.edges_subclassof.lookup p with _ | vs
  · exact absurd (by simp [childrenUrlsOf, hl]) h
  · simpa [selBound] using
      le_foldr_max (fun e => (select (candidateNamesOf dag e.1)).selected.length) 0
        (lookup_mem hl)

theorem cacheBound_mem_le (dag : OntologyDAG) (select : List String → SelectionResult)
    {cache : List (String × SelectionResult)} {p : String} {r : SelectionResult}
    (h : (p, r) ∈ cache) : r.selected.length ≤ cacheBound dag select cache :=
  le_foldr_max (fun e => e.2.selected.length) (selBound dag select) h

theorem cacheBound_append (dag : OntologyDAG) (select : List String → SelectionResult)
    (cache : List (String × SelectionResult)) (p : String) (r : SelectionResult)
    (h : r.selected.length ≤ cacheBound dag select cache) :
    cacheBound dag select (cache ++ [(p, r)]) = cacheBound dag select cache := by
  unfold cacheBound at *
  rw [List.map_append, List.foldr_append]
  simp only [List.map_cons, List.map_nil, List.foldr_cons, List.foldr_nil]
  rw [foldr_max_pull]
  exact max_eq_right h

theorem selBound_le_cacheBound (dag : OntologyDAG)
    (select : List String → SelectionResult)
    (cache : List (String × SelectionResult)) :
    selBound dag select ≤ cacheBound dag select cache := by
  unfold cacheBound
  exact base_le_foldr_max (fun e => e.2.selected.length) (selBound dag select) cache

theorem stepState_result_eq (dag : OntologyDAG)
    (select : List String → SelectionResult) (item : QItem) (st : BFSState) :
    (stepState dag select item st).1 =
      (memoSelect select (candidateNamesOf dag item.parentUrl) item.parentUrl st).1 :=
  rfl

theorem stepState_cache_eq (dag : OntologyDAG)
    (select : List String → SelectionResult) (item : QItem) (st : BFSState) :
    (stepState dag select item st).2.cache =
      (memoSelect select (candidateNamesOf dag item.parentUrl) item.parentUrl st).2.cache :=
  rfl

theorem memoSelect_cacheBound (dag : OntologyDAG)
    (select : List String → SelectionResult) (parentUrl : String) (st : BFSState)
    (h : childrenUrlsOf dag parentUrl ≠ []) :
    cacheBound dag select
        (memoSelect select (candidateNamesOf dag parentUrl) parentUrl st).2.cache =
      cacheBound dag select st.cache := by
  unfold memoSelect
  rcases hl : st.cache.lookup parentUrl with _ | r
  · exact cacheBound_append dag select st.cache parentUrl _
      (le_trans (selBound_key_le dag select h)
        (selBound_le_cacheBound dag select st.cache))
  · rfl

theorem memoSelect_selected_le (dag : OntologyDAG)
    (select : List String → SelectionResult) (parentUrl : String) (st : BFSState)
    (h : childrenUrlsOf dag parentUrl ≠ []) :
    (memoSelect select (candidateNamesOf dag parentUrl) parentUrl st).1.selected.length ≤
      cacheBound dag select st.cache := by
  unfold memoSelect
  rcases hl : st.cache.lookup parentUrl with _ | r
  · exact le_trans (selBound_key_le dag select h)
      (selBound_le_cacheBound dag select st.cache)
  · exact cacheBound_mem_le dag select (lookup_mem hl)

theorem stepState_cacheBound (dag : OntologyDAG)
    (select : List String → SelectionResult) (item : QItem) (st : BFSState)
    (h : childrenUrlsOf dag item.parentUrl ≠ []) :
    cacheBound dag select (stepState dag select item st).2.cache =
      cacheBound dag select st.cache := by
  rw [stepState_cache_eq]
  exact memoSelect_cacheBound dag select item.parentUrl st h

theorem stepState_selected_le (dag : OntologyDAG)
    (select : List String → SelectionResult) (item : QItem) (st : BFSState)
    (h : childrenUrlsOf dag item.parentUrl ≠ []) :
    (stepState dag select item st).1.selected.length ≤
      cacheBound dag select st.cache := by
  rw [stepState_result_eq]
  exact memoSelect_selected_le dag select item.parentUrl st h

theorem recordTerminal_cache (st : BFSState) (path : List String) :
    (recordTerminal st path).cache = st.cache := by
  unfold recordTerminal
  split <;> rfl

theorem enqueueItems_level (dag : OntologyDAG) (item : QItem)
    (childrenUrls : List String) (selected : List String) :
    ∀ i ∈ enqueueItems dag item childrenUrls selected, i.level = item.level + 1 := by
  intro i hi
  simp only [enqueueItems, List.mem_filterMap] at hi
  obtain ⟨selName, _, hmap⟩ := hi
  rcases hfind : (childrenUrls.find? fun url =>
      match dag.nodes.lookup url with
      | some node => node.name == selName
      | none => false) with _ | u
  · rw [hfind] at hmap
    cases hmap
  · rw [hfind] at hmap
    injection hmap with hmap
    rw [← hmap]

theorem queueWeight_const_level (w maxDepth L : Nat) :
    ∀ (q : List QItem), (∀ i ∈ q, i.level = L) →
      queueWeight w maxDepth q = q.length * (w + 1) ^ (maxDepth - L) := by
  intro q
  induction q with
  | nil => intro _; simp [queueWeight]
  | cons a rest ih =>
    intro h
    have ha := h a (List.mem_cons_self _ _)
    have hrest := ih (fun i hi => h i (List.mem_cons_of_mem _ hi))
    simp only [queueWeight, List.map_cons, List.sum_cons, List.length_cons] at *
    rw [ha, hrest]
    ring

theorem enqueueItems_weight_le (dag : OntologyDAG) (item : QItem)
    (childrenUrls : List String) (selected : List String) (w maxDepth : Nat) :
    queueWeight w maxDepth (enqueueItems dag item childrenUrls selected) ≤
      selected.length * (w + 1) ^ (maxDepth - (item.level + 1)) := by
  rw [queueWeight_const_level w maxDepth (item.level + 1) _
    (enqueueItems_level dag item childrenUrls selected)]
  exact Nat.mul_le_mul_right _ (List.length_filterMap_le _ _)

/-- The `while queue` BFS of `execute_column`.  Each dequeued item either
terminates the current path (no children / depth reached / no candidate
names / empty selection), terminates the branch with a `[terminated]`
marker on a failed selection, or expands the frontier with the selected
children. -/
def bfsLoop (maxDepth : Nat) (dag : OntologyDAG)
    (select : List String → SelectionResult) :
    List QItem → BFSState → BFSState
  | [], st => st
  | item :: rest, st =>
    if h1 : childrenUrlsOf dag item.parentUrl = [] ∨ maxDepth ≤ item.level then
      bfsLoop maxDepth dag select rest (recordTerminal st item.path)
    else
      if h2 : candidateNamesOf dag item.parentUrl = [] then
        bfsLoop maxDepth dag select rest (recordTerminal st item.path)
      else
        let rs := stepState dag select item st
        if rs.1.status = "failed" then
          bfsLoop maxDepth dag select rest
            { rs.2 with
                finalPaths := rs.2.finalPaths ++ [item.path ++ ["[terminated]"]] }
        else if rs.1.selected = [] then
          bfsLoop maxDepth dag select rest (recordTerminal rs.2 item.path)
        else
          bfsLoop maxDepth dag select
            (rest ++ enqueueItems dag item (childrenUrlsOf dag item.parentUrl)
              rs.1.selected)
            rs.2
termination_by queue st => queueWeight (cacheBound dag select st.cache) maxDepth queue
decreasing_by
· rw [recordTerminal_cache]
  simp only [queueWeight, List.map_cons, List.sum_cons]
  have : 0 < (cacheBound dag select st.cache + 1) ^ (maxDepth - item.level) :=
    Nat.pos_pow_of_pos _ (Nat.succ_pos _)
  omega
· rw [recordTerminal_cache]
  simp only [queueWeight, List.map_cons, List.sum_cons]
  have : 0 < (cacheBound dag select st.cache + 1) ^ (maxDepth - item.level) :=
    Nat.pos_pow_of_pos _ (Nat.succ_pos _)
  omega
· push_neg at h1
  rw [stepState_cacheBound dag select item st h1.1]
  simp only [queueWeight, List.map_cons, List.sum_cons]
  have : 0 < (cacheBound dag select st.cache + 1) ^ (maxDepth - item.level) :=
    Nat.pos_pow_of_pos _ (Nat.succ_pos _)
  omega
· push_neg at h1
  rw [recordTerminal_cache, stepState_cacheBound dag select item st h1.1]
  simp only [queueWeight, List.map_cons, List.sum_cons]
  have : 0 < (cacheBound dag select st.cache + 1) ^ (maxDepth - item.level) :=
    Nat.pos_pow_of_pos _ (Nat.succ_pos _)
  omega
· push_neg at h1
  rw [stepState_cacheBound dag select item st h1.1]
  set w := cacheBound dag select st.cache with hw
  have hq : queueWeight w maxDepth (rest ++ enqueueItems dag item
      (childrenUrlsOf dag item.parentUrl) (stepState dag select item st).1.selected) =
      queueWeight w maxDepth rest + queueWeight w maxDepth
        (enqueueItems dag item (childrenUrlsOf dag item.parentUrl)
          (stepState dag select item st).1.selected) := by
    simp [queueWeight]
  rw [hq]
  have hk : (stepState dag select item st).1.selected.length ≤ w :=
    stepState_selected_le dag select item st h1.1
  have hexp : maxDepth - item.level = (maxDepth - (item.level + 1)) + 1 := by
    omega
  have hx : 0 < (w + 1) ^ (maxDepth - (item.level + 1)) :=
    Nat.pos_pow_of_pos _ (Nat.succ_pos _)
  have hbound : queueWeight w maxDepth (enqueueItems dag item
      (childrenUrlsOf dag item.parentUrl) (stepState dag select item st).1.selected) <
      (w + 1) ^ (maxDepth - item.level) := by
    calc queueWeight w maxDepth (enqueueItems dag item
        (childrenUrlsOf dag item.parentUrl) (stepState dag select item st).1.selected) ≤
        (stepState dag select item st).1.selected.length *
          (w + 1) ^ (maxDepth - (item.level + 1)) :=
          enqueueItems_weight_le _ _ _ _ _ _
      _ ≤ w * (w + 1) ^ (maxDepth - (item.level + 1)) := Nat.mul_le_mul_right _ hk
      _ < (w + 1) * (w + 1) ^ (maxDepth - (item.level + 1)) :=
          (Nat.mul_lt_mul_right hx).mpr (Nat.lt_succ_self w)
      _ = (w + 1) ^ (maxDepth - item.level) := by rw [hexp, pow_succ, Nat.mul_comm]
  simp only [queueWeight, List.map_cons, List.sum_cons]
  simp only [queueWeight] at hbound
  omega

/-- `RunExecutor.execute_column`: run the BFS from `(0, root, [])`, then the
empty-result fallback and the overall-status derivation. -/
def execute_column (maxDepth : Nat) (dag : OntologyDAG)
    (select : List String → SelectionResult) (columnName : String) :
    ColumnResultDetail :=
  let final := bfsLoop maxDepth dag select
    [{ level := 0, parentUrl := dag.root, path := [] }] {}
  -- If no paths collected, add empty path.
  let finalPaths := if final.finalPaths = [] then [[]] else final.finalPaths
  -- Determine overall status.
  let allFailed := final.steps.all (fun s => s.status == "failed")
  let anyFailed := final.steps.any (fun s => s.status == "failed")
  { column_name := columnName
    status := if allFailed then "failed" else if anyFailed then "partial"
      else "completed"
    steps := final.steps
    final_paths := finalPaths
    error := if allFailed then some "All steps failed" else none }

/-- The ghost call log of one `execute_column` run: the parent URLs for
which the selector was actually invoked, in order. -/
def executeColumnCallLog (maxDepth : Nat) (dag : OntologyDAG)
    (select : List String → SelectionResult) : List String :=
  (bfsLoop maxDepth dag select [{ level := 0, parentUrl := dag.root, path := [] }]
    {}).callLog

/-! ### Concrete scenario inputs used by counterexamples and witnesses -/

/-- A node whose name equals its URL (scenario graphs). -/
def mkNode (u : String) : OntologyClass := { url := u, name := u }

/-- Scenario graph of the spec: root `R` with children `{A, B}`, `A` a leaf,
`B → {C}`. -/
def scenarioDag : OntologyDAG :=
  { nodes := [("R", mkNode "R"), ("A", mkNode "A"), ("B", mkNode "B"),
      ("C", mkNode "C")]
    edges_subclassof := [("R", ["A", "B"]), ("B", ["C"])]
    edges := [("A", ["R"]), ("B", ["R"]), ("C", ["B"])]
    root := "R" }

/-- An LLM completion carrying the given answer in `<answer>` tags. -/
def mkRaw (answer : String) : LLMResult :=
  { content := "<answer>" ++ answer ++ "</answer>" }

/-- Single-strategy oracle that answers `A, B` for the root's candidates and
`C` for `B`'s candidates. -/
def selectBothAB : List String → SelectionResult := fun candidates =>
  select_single 3 "cot"
    (fun _ => Except.ok (mkRaw (if candidates = ["C"] then "C" else "A, B")))
    candidates

/-- Single-strategy oracle that always selects only `A` at the root level
(`A` for candidates `[A, B]`) and `C` at level 1 — the claim's literal
oracle. -/
def selectOnlyA : List String → SelectionResult := fun candidates =>
  select_single 3 "cot"
    (fun _ => Except.ok (mkRaw (if candidates = ["C"] then "C" else "A")))
    candidates

/-- Single-strategy oracle whose LLM always answers the no-selection
sentinel `-`. -/
def selectNone : List String → SelectionResult := fun candidates =>
  select_single 3 "cot" (fun _ => Except.ok (mkRaw "-")) candidates

/-- A selector outcome modelling an exception escaping the retry wrapper
(`except` branch of `select_single`). -/
def selectRaise : List String → SelectionResult := fun _ =>
  { selected := [], status := "failed", error := some "boom" }

/-- An oracle whose every attempt raises. -/
def genAllFail : Nat → Except String LLMResult := fun _ =>
  Except.error "connection error"

/-- The depth BFS of `build_from_dag`, as a standalone function of the dag. -/
def bfsDepths (dag : OntologyDAG) : List (String × Nat) :=
  bfsDepthsLoop dag.edges_subclassof [(dag.root, 0)] [] []

/-- An entry of the depth map justified by the BFS: either the root at depth
0, or a node reached from an already-assigned parent one level up. -/
def depthSourced (edges : List (String × List String)) (root : String)
    (depths : List (String × Nat)) (e : String × Nat) : Prop :=
  (e.1 = root ∧ e.2 = 0) ∨
    ∃ p dp, depths.lookup p = some dp ∧ e.1 ∈ (edges.lookup p).getD [] ∧
      e.2 = dp + 1

/-- A diamond: `R → {A, B}` and `A → {B}`, so `B` is reachable from the root
by paths of lengths 1 and 2. -/
def diamondDag : OntologyDAG :=
  { nodes := [("R", mkNode "R"), ("A", mkNode "A"), ("B", mkNode "B")]
    edges_subclassof := [("R", ["A", "B"]), ("A", ["B"])]
    edges := [("A", ["R"]), ("B", ["R", "A"])]
    root := "R" }

/-- A cached tree whose root URL has no entry in the nodes map (the source
comments call out this owl:Thing case). -/
def rootlessTree : CachedTree :=
  { root := "R", nodes := [("A", { url := "A", name := "A", children := [] })] }

/-- A cached tree whose root is present in the nodes map. -/
def rootedTree : CachedTree :=
  { root := "R", nodes := [("R", { url := "R", name := "R", children := [] })] }

/-- A random source that always draws agents 0, 1 and 2. -/
def c2Sample : Nat → List Nat := fun _ => [0, 1, 2]

/-- An agent response whose answer text is `ans`. -/
def mkResp (ans : String) : LLMResponseDetail := { raw := ans, answer := ans }

/-- Agent calls for the duplicate-vote run: agent 1 answers `"X, X, X"`
(the candidate repeated three times), agents 2 and 3 answer the
no-selection sentinel. -/
def c2CallsDup : Nat → List String → Except String LLMResponseDetail :=
  fun agentId _ =>
    if agentId = 1 then .ok (mkResp "X, X, X") else .ok (mkResp "-")

/-- Agent calls for the 2-of-3 run: agents 1 and 2 answer `"X"` once each,
agent 3 answers the no-selection sentinel. -/
def c2Calls2of3 : Nat → List String → Except String LLMResponseDetail :=
  fun agentId _ =>
    if agentId ≤ 2 then .ok (mkResp "X") else .ok (mkResp "-")

/-- The vote count as the spec words it: the number of agents assigned the
candidate whose parsed answer included it (one vote per agent, not per
occurrence). -/
def specVotesFor (r : SelectionResult) (c : String) : Nat :=
  (edmAgents r).countP
    (fun a => a.assigned_classes.contains c && a.voted_classes.contains c)

/-- Ten distinct candidates, the `N=10` sizing scenario. -/
def c7Candidates : List String :=
  ["a", "b", "c", "d", "e", "f", "g", "h", "i", "j"]

end Saed

namespace Saed

/-! ### Status derivation helper -/

/-- The status/error derivation of `execute_column` as a function of the
recorded steps (the `all`/`any` probes of lines 824–831). -/
theorem executeColumn_status_def (maxDepth : Nat) (dag : OntologyDAG)
    (select : List String → SelectionResult) (columnName : String) :
    (execute_column maxDepth dag select columnName).status =
      (if (execute_column maxDepth dag select columnName).steps.all
          (fun s => s.status == "failed") then "failed"
        else if (execute_column maxDepth dag select columnName).steps.any
          (fun s => s.status == "failed") then "partial"
        else "completed") := rfl

theorem executeColumn_error_def (maxDepth : Nat) (dag : OntologyDAG)
    (select : List String → SelectionResult) (columnName : String) :
    (execute_column maxDepth dag select columnName).error =
      (if (execute_column maxDepth dag select columnName).steps.all
          (fun s => s.status == "failed") then some "All steps failed"
        else none) := rfl

theorem executeColumn_final_paths_def (maxDepth : Nat) (dag : OntologyDAG)
    (select : List String → SelectionResult) (columnName : String) :
    (execute_column maxDepth dag select columnName).final_paths =
      (if (bfsLoop maxDepth dag select
            [{ level := 0, parentUrl := dag.root, path := [] }] {}).finalPaths = []
        then [[]]
        else (bfsLoop maxDepth dag select
          [{ level := 0, parentUrl := dag.root, path := [] }] {}).finalPaths) := rfl

/-! ### Claim theorems -/

/-- C1 (counterexample): with the claim's literal oracle — the single
strategy selecting only `A` at level 0 (and `C` at level 1) — the scenario
run returns `final_paths = [["A"]]`, not the claimed `[["A"], ["B","C"]]`
(the `B` branch is never entered because `B` is not selected). -/
theorem c1_literal_counterexample :
    (execute_column 3 scenarioDag selectOnlyA "col").final_paths = [["A"]] ∧
    (execute_column 3 scenarioDag selectOnlyA "col").status = "completed" ∧
    ¬ (execute_column 3 scenarioDag selectOnlyA "col").final_paths =
        [["A"], ["B", "C"]] := by
  have h : (execute_column 3 scenarioDag selectOnlyA "col").final_paths = [["A"]] := by
    simp [execute_column, bfsLoop, stepState, memoSelect, recordTerminal,
      enqueueItems, childrenUrlsOf, candidateNamesOf, scenarioDag, selectOnlyA,
      select_single, callLLMWithRetry, callLLMWithRetryGo, extract_answer,
      extract_reasoning, parse_class_list, pySplit, splitChars, pyStrip,
      List.lookup, mkRaw, mkNode, String.intercalate]
  refine ⟨h, ?_, by rw [h]; decide⟩
  simp [execute_column, bfsLoop, stepState, memoSelect, recordTerminal,
    enqueueItems, childrenUrlsOf, candidateNamesOf, scenarioDag, selectOnlyA,
    select_single, callLLMWithRetry, callLLMWithRetryGo, extract_answer,
    extract_reasoning, parse_class_list, pySplit, splitChars, pyStrip,
    List.lookup, mkRaw, mkNode, String.intercalate]

/-- C1 (amended): on the scenario graph `R → {A, B}`, `A` a leaf, `B → {C}`,
with the single strategy selecting both `A` and `B` at level 0 and `C` at
level 1 and `max_depth = 3`, `execute_column` returns
`final_paths = [["A"], ["B","C"]]` and status `completed`. -/
theorem c1_scenario_amended :
    (execute_column 3 scenarioDag selectBothAB "col").final_paths =
        [["A"], ["B", "C"]] ∧
    (execute_column 3 scenarioDag selectBothAB "col").status = "completed" := by
  constructor <;>
    simp [execute_column, bfsLoop, stepState, memoSelect, recordTerminal,
      enqueueItems, childrenUrlsOf, candidateNamesOf, scenarioDag, selectBothAB,
      select_single, callLLMWithRetry, callLLMWithRetryGo, extract_answer,
      extract_reasoning, parse_class_list, pySplit, splitChars, pyStrip,
      List.lookup, mkRaw, mkNode, String.intercalate]

/-- C3: for every run of `execute_column`, the returned status is `failed`
iff every recorded step failed (vacuously so for zero steps, which the code
maps to `failed` with error `All steps failed`), `partial` iff at least one
but not all steps failed, and `completed` iff no step failed and at least
one step was recorded. -/
theorem c3_status_derivation (maxDepth : Nat) (dag : OntologyDAG)
    (select : List String → SelectionResult) (columnName : String) :
    ((execute_column maxDepth dag select columnName).status = "failed" ↔
      ∀ s ∈ (execute_column maxDepth dag select columnName).steps,
        s.status = "failed") ∧
    ((execute_column maxDepth dag select columnName).status = "partial" ↔
      ((∃ s ∈ (execute_column maxDepth dag select columnName).steps,
          s.status = "failed") ∧
        ¬ ∀ s ∈ (execute_column maxDepth dag select columnName).steps,
          s.status = "failed")) ∧
    ((execute_column maxDepth dag select columnName).status = "completed" ↔
      ((∀ s ∈ (execute_column maxDepth dag select columnName).steps,
          s.status ≠ "failed") ∧
        (execute_column maxDepth dag select columnName).steps ≠ [])) ∧
    ((execute_column maxDepth dag select columnName).steps = [] →
      (execute_column maxDepth dag select columnName).status = "failed" ∧
      (execute_column maxDepth dag select columnName).error =
        some "All steps failed") := by
  rw [executeColumn_status_def, executeColumn_error_def]
  by_cases hall : (execute_column maxDepth dag select columnName).steps.all
      (fun s => s.status == "failed")
  · have hallP : ∀ s ∈ (execute_column maxDepth dag select columnName).steps,
        s.status = "failed" := by
      intro s hs
      exact beq_iff_eq.mp (List.all_eq_true.mp hall s hs)
    simp only [if_pos hall]
    refine ⟨iff_of_true (by trivial) hallP, ?_, ?_, fun _ => ⟨by trivial, by trivial⟩⟩
    · exact iff_of_false (by decide) (fun h => h.2 hallP)
    · refine iff_of_false (by decide) ?_
      rintro ⟨hne, hnil⟩
      obtain ⟨s0, hs0⟩ := List.exists_mem_of_ne_nil _ hnil
      exact hne s0 hs0 (hallP s0 hs0)
  · have hnall : ¬ ∀ s ∈ (execute_column maxDepth dag select columnName).steps,
        s.status = "failed" := by
      intro h
      exact hall (List.all_eq_true.mpr (fun s hs => beq_iff_eq.mpr (h s hs)))
    have hnnil : (execute_column maxDepth dag select columnName).steps ≠ [] := by
      intro h
      exact hall (by rw [h]; rfl)
    simp only [if_neg hall]
    by_cases hany : (execute_column maxDepth dag select columnName).steps.any
        (fun s => s.status == "failed")
    · obtain ⟨s0, hs0, hs0f⟩ := List.any_eq_true.mp hany
      rw [if_pos hany]
      refine ⟨iff_of_false (by decide) hnall, ?_, ?_, fun h => absurd h hnnil⟩
      · exact iff_of_true (by trivial) ⟨⟨s0, hs0, beq_iff_eq.mp hs0f⟩, hnall⟩
      · exact iff_of_false (by decide)
          (fun h => h.1 s0 hs0 (beq_iff_eq.mp hs0f))
    · have hnone : ∀ s ∈ (execute_column maxDepth dag select columnName).steps,
          s.status ≠ "failed" := by
        intro s hs hf
        exact hany (List.any_eq_true.mpr ⟨s, hs, beq_iff_eq.mpr hf⟩)
      rw [if_neg hany]
      refine ⟨iff_of_false (by decide) hnall, ?_, iff_of_true (by trivial) ⟨hnone, hnnil⟩,
        fun h => absurd h hnnil⟩
      exact iff_of_false (by decide) (fun h => by
        obtain ⟨s0, hs0, hs0f⟩ := h.1
        exact hnone s0 hs0 hs0f)

/-- C3 (witness): a run whose only step fails (a selector raising into the
`except` branch) yields status `failed`, via `c3_status_derivation`. -/
theorem c3_status_derivation_witness :
    (execute_column 3 scenarioDag selectRaise "col").status = "failed" := by
  have h := (c3_status_derivation 3 scenarioDag selectRaise "col").1
  rw [h]
  intro s hs
  revert hs
  simp [execute_column, bfsLoop, stepState, memoSelect, recordTerminal,
    enqueueItems, childrenUrlsOf, candidateNamesOf, scenarioDag, selectRaise,
    List.lookup, mkNode]
  rintro rfl
  rfl

/-- C4: `execute_column` never returns an empty `final_paths` list, and when
the traversal collects no terminal path at all the returned `final_paths` is
exactly `[[]]`. -/
theorem c4_nonempty_final_paths (maxDepth : Nat) (dag : OntologyDAG)
    (select : List String → SelectionResult) (columnName : String) :
    (execute_column maxDepth dag select columnName).final_paths ≠ [] ∧
    ((bfsLoop maxDepth dag select
        [{ level := 0, parentUrl := dag.root, path := [] }] {}).finalPaths = [] →
      (execute_column maxDepth dag select columnName).final_paths = [[]]) := by
  rw [executeColumn_final_paths_def]
  by_cases h : (bfsLoop maxDepth dag select
      [{ level := 0, parentUrl := dag.root, path := [] }] {}).finalPaths = []
  · rw [if_pos h]
    exact ⟨by decide, fun _ => rfl⟩
  · rw [if_neg h]
    exact ⟨h, fun hc => absurd hc h⟩

/-- C4 (witness): a run in which no candidate is ever accepted (the oracle
always answers the no-selection sentinel) collects no terminal path, and the
result is the single empty path, via `c4_nonempty_final_paths`. -/
theorem c4_nonempty_final_paths_witness :
    (execute_column 3 scenarioDag selectNone "col").final_paths = [[]] := by
  apply (c4_nonempty_final_paths 3 scenarioDag selectNone "col").2
  simp [bfsLoop, stepState, memoSelect, recordTerminal, enqueueItems,
    childrenUrlsOf, candidateNamesOf, scenarioDag, selectNone, select_single,
    callLLMWithRetry, callLLMWithRetryGo, extract_answer, extract_reasoning,
    parse_class_list, pySplit, splitChars, pyStrip, List.lookup, mkRaw, mkNode,
    String.intercalate]

/-- C6 (counterexample): when every attempt raises, the retry wrapper with
`max_retries = 3` performs backoff sleeps `[1, 2]` — a `4`-second sleep never
occurs (no sleep follows the final attempt), refuting the claimed
`1s, 2s, 4s` schedule. -/
theorem c6_backoff_counterexample :
    (callLLMWithRetry 3 "cot" genAllFail).attemptsMade = 3 ∧
    (callLLMWithRetry 3 "cot" genAllFail).sleeps = [1, 2] ∧
    ¬ (callLLMWithRetry 3 "cot" genAllFail).sleeps = [1, 2, 4] ∧
    ¬ 4 ∈ (callLLMWithRetry 3 "cot" genAllFail).sleeps := by decide

/-- C6 (amended): every oracle call through `DetailedSelector` is attempted
at most 3 times, with exponential backoff sleeps of `2 ** attempt` seconds
between consecutive attempts — so at most `1s` then `2s`, never `4s`; if
every attempt raises, the retry wrapper does not raise but returns a
response whose answer is empty, and `select_single` then still reports
status `completed` with an empty accepted list. -/
theorem c6_retry_amended (promptType : String)
    (gen : Nat → Except String LLMResult) :
    (callLLMWithRetry 3 promptType gen).attemptsMade ≤ 3 ∧
    ((callLLMWithRetry 3 promptType gen).sleeps = [] ∨
      (callLLMWithRetry 3 promptType gen).sleeps = [1] ∨
      (callLLMWithRetry 3 promptType gen).sleeps = [1, 2]) ∧
    ((∀ i, i < 3 → ∃ e, gen i = Except.error e) →
      (callLLMWithRetry 3 promptType gen).attemptsMade = 3 ∧
      (callLLMWithRetry 3 promptType gen).sleeps = [1, 2] ∧
      (callLLMWithRetry 3 promptType gen).response.answer = "" ∧
      ∀ candidates : List String, candidates ≠ [] →
        (select_single 3 promptType gen candidates).status = "completed" ∧
        (select_single 3 promptType gen candidates).selected = []) := by
  rcases h0 : gen 0 with e0 | r0
  · rcases h1 : gen 1 with e1 | r1
    · rcases h2 : gen 2 with e2 | r2
      · refine ⟨?_, ?_, fun _ => ⟨?_, ?_, ?_, fun candidates hc => ?_⟩⟩
        · simp [callLLMWithRetry, callLLMWithRetryGo, h0, h1, h2]
        · right; right
          simp [callLLMWithRetry, callLLMWithRetryGo, h0, h1, h2]
        · simp [callLLMWithRetry, callLLMWithRetryGo, h0, h1, h2]
        · simp [callLLMWithRetry, callLLMWithRetryGo, h0, h1, h2]
        · simp [callLLMWithRetry, callLLMWithRetryGo, h0, h1, h2]
        · constructor <;>
            simp [select_single, hc, callLLMWithRetry, callLLMWithRetryGo,
              h0, h1, h2]
      · refine ⟨?_, ?_, fun hfail => ?_⟩
        · simp [callLLMWithRetry, callLLMWithRetryGo, h0, h1, h2]
        · right; right
          simp [callLLMWithRetry, callLLMWithRetryGo, h0, h1, h2]
        · obtain ⟨e, he⟩ := hfail 2 (by omega)
          rw [h2] at he
          simp at he
    · refine ⟨?_, ?_, fun hfail => ?_⟩
      · simp [callLLMWithRetry, callLLMWithRetryGo, h0, h1]
      · right; left
        simp [callLLMWithRetry, callLLMWithRetryGo, h0, h1]
      · obtain ⟨e, he⟩ := hfail 1 (by omega)
        rw [h1] at he
        simp at he
  · refine ⟨?_, ?_, fun hfail => ?_⟩
    · simp [callLLMWithRetry, callLLMWithRetryGo, h0]
    · left
      simp [callLLMWithRetry, callLLMWithRetryGo, h0]
    · obtain ⟨e, he⟩ := hfail 0 (by omega)
      rw [h0] at he
      simp at he

/-- C6 (witness): `c6_retry_amended` at the always-raising oracle — three
attempts, sleeps `[1, 2]`, empty answer, and a `completed` empty selection. -/
theorem c6_retry_amended_witness :
    (callLLMWithRetry 3 "cot" genAllFail).attemptsMade = 3 ∧
    (select_single 3 "cot" genAllFail ["A"]).status = "completed" ∧
    (select_single 3 "cot" genAllFail ["A"]).selected = [] := by
  have h := (c6_retry_amended "cot" genAllFail).2.2
    (fun i _ => ⟨"connection error", rfl⟩)
  exact ⟨h.1, (h.2.2.2 ["A"] (by decide)).1, (h.2.2.2 ["A"] (by decide)).2⟩

/-! ### Memoization (C5) -/

theorem lookup_append_left {α : Type} {l l' : List (String × α)} {k : String}
    {v : α} (h : l.lookup k = some v) : (l ++ l').lookup k = some v := by
  induction l with
  | nil => simp [List.lookup] at h
  | cons e rest ih =>
    obtain ⟨k', v'⟩ := e
    rw [List.lookup] at h
    rw [List.cons_append, List.lookup]
    cases hk : (k == k')
    · rw [hk] at h
      exact ih h
    · rw [hk] at h
      exact h

theorem lookup_append_right {α : Type} {l l' : List (String × α)} {k : String}
    (h : l.lookup k = none) : (l ++ l').lookup k = l'.lookup k := by
  induction l with
  | nil => rfl
  | cons e rest ih =>
    obtain ⟨k', v'⟩ := e
    rw [List.lookup] at h
    rw [List.cons_append, List.lookup]
    cases hk : (k == k')
    · rw [hk] at h
      exact ih h
    · rw [hk] at h
      cases h

theorem stepState_callLog_eq (dag : OntologyDAG)
    (select : List String → SelectionResult) (item : QItem) (st : BFSState) :
    (stepState dag select item st).2.callLog =
      (memoSelect select (candidateNamesOf dag item.parentUrl) item.parentUrl
        st).2.callLog :=
  rfl

theorem recordTerminal_callLog (st : BFSState) (path : List String) :
    (recordTerminal st path).callLog = st.callLog := by
  unfold recordTerminal
  split <;> rfl

/-- The call-log/cache invariant: the log stays duplicate-free, and every
logged parent has a cached outcome. -/
theorem stepState_callLog_invariant (dag : OntologyDAG)
    (select : List String → SelectionResult) (item : QItem) (st : BFSState)
    (h1 : st.callLog.Nodup)
    (h2 : ∀ p ∈ st.callLog, (st.cache.lookup p).isSome) :
    (stepState dag select item st).2.callLog.Nodup ∧
      ∀ p ∈ (stepState dag select item st).2.callLog,
        ((stepState dag select item st).2.cache.lookup p).isSome := by
  rw [stepState_callLog_eq, stepState_cache_eq]
  unfold memoSelect
  rcases hl : st.cache.lookup item.parentUrl with _ | r
  · have hnotin : item.parentUrl ∉ st.callLog := by
      intro hmem
      have := h2 _ hmem
      rw [hl] at this
      simp at this
    constructor
    · rw [List.nodup_append]
      exact ⟨h1, List.nodup_singleton _, by
        intro a ha hb
        rw [List.mem_singleton] at hb
        exact hnotin (hb ▸ ha)⟩
    · intro p hp
      rw [List.mem_append, List.mem_singleton] at hp
      rcases hp with hp | hp
      · have := h2 _ hp
        rcases hq : st.cache.lookup p with _ | v
        · rw [hq] at this
          simp at this
        · rw [lookup_append_left hq]
          rfl
      · subst hp
        rw [lookup_append_right hl]
        simp [List.lookup]
  · exact ⟨h1, fun p hp => h2 p hp⟩

theorem bfsLoop_callLog_invariant (maxDepth : Nat) (dag : OntologyDAG)
    (select : List String → SelectionResult) :
    ∀ (queue : List QItem) (st : BFSState), st.callLog.Nodup →
      (∀ p ∈ st.callLog, (st.cache.lookup p).isSome) →
      ((bfsLoop maxDepth dag select queue st).callLog.Nodup ∧
        ∀ p ∈ (bfsLoop maxDepth dag select queue st).callLog,
          ((bfsLoop maxDepth dag select queue st).cache.lookup p).isSome) := by
  intro queue st
  induction queue, st using bfsLoop.induct maxDepth dag select with
  | case1 st =>
    intro h1 h2
    rw [bfsLoop]
    exact ⟨h1, h2⟩
  | case2 item rest st h ih =>
    intro h1 h2
    rw [bfsLoop, dif_pos h]
    exact ih (by rwa [recordTerminal_callLog]) (by
      rw [recordTerminal_callLog, recordTerminal_cache]
      exact h2)
  | case3 item rest st h hc ih =>
    intro h1 h2
    rw [bfsLoop, dif_neg h, dif_pos hc]
    exact ih (by rwa [recordTerminal_callLog]) (by
      rw [recordTerminal_callLog, recordTerminal_cache]
      exact h2)
  | case4 item rest st h hc rs hfail ih =>
    intro h1 h2
    rw [bfsLoop, dif_neg h, dif_neg hc]
    have hf : (stepState dag select item st).1.status = "failed" := hfail
    rw [if_pos hf]
    have hs := stepState_callLog_invariant dag select item st h1 h2
    exact ih hs.1 hs.2
  | case5 item rest st h hc rs hnf hempty ih =>
    intro h1 h2
    rw [bfsLoop, dif_neg h, dif_neg hc]
    have hf : ¬ (stepState dag select item st).1.status = "failed" := hnf
    have he : (stepState dag select item st).1.selected = [] := hempty
    rw [if_neg hf, if_pos he]
    have hs := stepState_callLog_invariant dag select item st h1 h2
    exact ih (by rw [recordTerminal_callLog]; exact hs.1) (by
      rw [recordTerminal_callLog, recordTerminal_cache]
      exact hs.2)
  | case6 item rest st h hc rs hnf hnempty ih =>
    intro h1 h2
    rw [bfsLoop, dif_neg h, dif_neg hc]
    have hf : ¬ (stepState dag select item st).1.status = "failed" := hnf
    have he : ¬ (stepState dag select item st).1.selected = [] := hnempty
    rw [if_neg hf, if_neg he]
    have hs := stepState_callLog_invariant dag select item st h1 h2
    exact ih hs.1 hs.2

/-- C5: within a single `execute_column` run the selector is invoked at most
once per distinct parent node id — the ghost call log of the run contains
each parent URL at most once (the memoized `SelectionResult` is reused when
the same parent is dequeued again). -/
theorem c5_memoized_call_count (maxDepth : Nat) (dag : OntologyDAG)
    (select : List String → SelectionResult) (p : String) :
    (executeColumnCallLog maxDepth dag select).count p ≤ 1 := by
  have h := bfsLoop_callLog_invariant maxDepth dag select
    [{ level := 0, parentUrl := dag.root, path := [] }] {}
    List.nodup_nil (by intro q hq; cases hq)
  exact List.nodup_iff_count_le_one.mp h.1 p

/-! ### Depth cache (C9) -/

theorem bfsDepthsLoop_lookup_mono (edges : List (String × List String)) :
    ∀ (q : List (String × Nat)) (v : List String) (d : List (String × Nat))
      (k : String) (x : Nat), d.lookup k = some x →
      (bfsDepthsLoop edges q v d).lookup k = some x := by
  intro q v d
  induction q, v, d using bfsDepthsLoop.induct edges with
  | case1 v d =>
    intro k x h
    rw [bfsDepthsLoop]
    exact h
  | case2 url depth rest visited depths hvis ih =>
    intro k x h
    rw [bfsDepthsLoop, if_pos hvis]
    exact ih k x h
  | case3 url depth rest visited depths hvis vis' dep' ch new ih =>
    intro k x h
    rw [bfsDepthsLoop, if_neg hvis]
    exact ih k x (lookup_append_left h)

theorem depthSourced_mono {edges : List (String × List String)} {root : String}
    {d d' : List (String × Nat)} {e : String × Nat}
    (h : ∀ (p : String) (x : Nat), d.lookup p = some x → d'.lookup p = some x)
    (hs : depthSourced edges root d e) : depthSourced edges root d' e := by
  rcases hs with h0 | ⟨p, dp, hp, hmem, he⟩
  · exact Or.inl h0
  · exact Or.inr ⟨p, dp, h p dp hp, hmem, he⟩

theorem bfsDepthsLoop_sourced (edges : List (String × List String)) (root : String) :
    ∀ (q : List (String × Nat)) (v : List String) (d : List (String × Nat)),
      (∀ e ∈ d, e.1 ∈ v) →
      (∀ e ∈ d, depthSourced edges root d e) →
      (∀ e ∈ q, depthSourced edges root d e) →
      ∀ e ∈ bfsDepthsLoop edges q v d,
        depthSourced edges root (bfsDepthsLoop edges q v d) e := by
  intro q v d
  induction q, v, d using bfsDepthsLoop.induct edges with
  | case1 v d =>
    intro _ hd _ e he
    rw [bfsDepthsLoop] at he ⊢
    exact hd e he
  | case2 url depth rest visited depths hvis ih =>
    intro hin hd hq
    rw [bfsDepthsLoop, if_pos hvis]
    exact ih hin hd (fun e he => hq e (List.mem_cons_of_mem _ he))
  | case3 url depth rest visited depths hvis vis' dep' ch new ih =>
    intro hin hd hq
    rw [bfsDepthsLoop, if_neg hvis]
    have hmono : ∀ (p : String) (x : Nat), depths.lookup p = some x →
        (depths ++ [(url, depth)]).lookup p = some x :=
      fun p x hp => lookup_append_left hp
    apply ih
    · intro e he
      rcases List.mem_append.mp he with he | he
      · exact List.mem_cons_of_mem _ (hin e he)
      · rw [List.mem_singleton] at he
        subst he
        exact List.mem_cons_self _ _
    · intro e he
      rcases List.mem_append.mp he with he | he
      · exact depthSourced_mono hmono (hd e he)
      · rw [List.mem_singleton] at he
        subst he
        exact depthSourced_mono hmono (hq _ (List.mem_cons_self _ _))
    · intro e he
      rcases List.mem_append.mp he with he | he
      · exact depthSourced_mono hmono (hq e (List.mem_cons_of_mem _ he))
      · have he2 : e ∈ (((edges.lookup url).getD []).filter
            (fun c => decide (c ∉ url :: visited))).map (fun c => (c, depth + 1)) := he
        simp only [List.mem_map, List.mem_filter] at he2
        obtain ⟨c, ⟨hcmem, _⟩, rfl⟩ := he2
        refine Or.inr ⟨url, depth, ?_, hcmem, rfl⟩
        have hnone : depths.lookup url = none := by
          rcases hh : depths.lookup url with _ | y
          · rfl
          · exact absurd (hin _ (lookup_mem hh)) hvis
        rw [lookup_append_right hnone]
        simp [List.lookup]

theorem bfsDepths_root_lookup (dag : OntologyDAG) :
    (bfsDepths dag).lookup dag.root = some 0 := by
  unfold bfsDepths
  rw [bfsDepthsLoop, if_neg (List.not_mem_nil _)]
  apply bfsDepthsLoop_lookup_mono
  simp [List.lookup]

/-- C9 (counterexample): on the diamond `R → {A, B}`, `A → {B}`, the cache
built by `build_from_dag` assigns BFS depths `A ↦ 1` and `B ↦ 1`, so the
recorded edge `A → B` violates `depth(child) = depth(parent) + 1`. -/
theorem c9_depth_edge_counterexample :
    (build_from_dag diamondDag).nodes.lookup "A" =
      some { url := "A", name := "A", children := ["B"], depth := 1 } ∧
    (build_from_dag diamondDag).nodes.lookup "B" =
      some { url := "B", name := "B", children := [], depth := 1 } ∧
    ¬ (1 : Nat) = 1 + 1 := by
  refine ⟨?_, ?_, by decide⟩ <;>
    simp [build_from_dag, bfsDepthsLoop, diamondDag, mkNode, List.lookup]

/-- C9 (amended): in every `CachedTree` produced by `build_from_dag`, the
root is assigned depth 0, each cached node carries
`depth = depths.get(url, 0)` and its subclass children, and every non-root
URL reached by the BFS has depth exactly one more than the depth of some
parent whose children list contains it (the BFS discovery parent); for
edges closing multiple paths, `depth(child) = depth(parent) + 1` need not
hold for every recorded edge. -/
theorem c9_depth_invariant_amended (dag : OntologyDAG) :
    (bfsDepths dag).lookup dag.root = some 0 ∧
    (∀ e ∈ (build_from_dag dag).nodes,
      e.2.depth = ((bfsDepths dag).lookup e.1).getD 0 ∧
      e.2.children = (dag.edges_subclassof.lookup e.1).getD [] ∧
      (e.1 = dag.root → e.2.depth = 0)) ∧
    (∀ e ∈ bfsDepths dag, e.1 ≠ dag.root →
      ∃ p dp, (bfsDepths dag).lookup p = some dp ∧
        e.1 ∈ (dag.edges_subclassof.lookup p).getD [] ∧ e.2 = dp + 1) := by
  refine ⟨bfsDepths_root_lookup dag, ?_, ?_⟩
  · intro e he
    simp only [build_from_dag, List.mem_map] at he
    obtain ⟨a, ha, rfl⟩ := he
    refine ⟨rfl, rfl, ?_⟩
    intro hroot
    show ((bfsDepths dag).lookup a.1).getD 0 = 0
    rw [hroot, bfsDepths_root_lookup dag]
    rfl
  · intro e he hne
    have h := bfsDepthsLoop_sourced dag.edges_subclassof dag.root
      [(dag.root, 0)] [] []
      (by intro x hx; cases hx) (by intro x hx; cases hx)
      (by
        intro x hx
        rw [List.mem_singleton] at hx
        subst hx
        exact Or.inl ⟨rfl, rfl⟩)
    rcases h e he with ⟨h0, _⟩ | hex
    · exact absurd h0 hne
    · exact hex

/-- C9 (witness): `c9_depth_invariant_amended` on the diamond — the entry
`B ↦ 1` is justified by the discovery parent `R` at depth 0. -/
theorem c9_depth_invariant_amended_witness :
    ∃ p dp, (bfsDepths diamondDag).lookup p = some dp ∧
      "B" ∈ (diamondDag.edges_subclassof.lookup p).getD [] ∧ 1 = dp + 1 := by
  refine (c9_depth_invariant_amended diamondDag).2.2 ("B", 1) ?_ (by decide)
  simp [bfsDepths, bfsDepthsLoop, diamondDag, mkNode, List.lookup]

/-! ### Subtree extraction (C10) -/

theorem subtreeLoop_length_mono (tree : CachedTree) (md : Option Nat) :
    ∀ (q : List (String × Nat)) (v : List String)
      (r : List (String × CachedNode)),
      r.length ≤ (subtreeLoop tree md q v r).length := by
  intro q v r
  induction q, v, r using subtreeLoop.induct tree md with
  | case1 v r =>
    rw [subtreeLoop_nil]
  | case2 url relDepth rest visited result hvis ih =>
    rw [subtreeLoop_cons, if_pos hvis]
    exact ih
  | case3 url relDepth rest visited result hvis vis' h node hlimit ih =>
    rw [subtreeLoop_cons, if_neg hvis, dif_pos h, if_pos hlimit]
    exact le_trans (by simp) ih
  | case4 url relDepth rest visited result hvis vis' h node hnlimit
      newItems hasMore ih =>
    rw [subtreeLoop_cons, if_neg hvis, dif_pos h, if_neg hnlimit]
    exact le_trans (by simp) ih
  | case5 url relDepth rest visited result hvis vis' h ih =>
    rw [subtreeLoop_cons, if_neg hvis, dif_neg h]
    exact ih

/-- C10 (counterexample): on a tree whose root URL `R` is absent from the
nodes map, `get_subtree` with the unknown start id `X` does substitute the
tree root, but returns an empty tree (`nodes = []`), refuting "never returns
an empty tree for an unknown start id". -/
theorem c10_empty_tree_counterexample :
    (get_subtree rootlessTree (some "X") none).root = "R" ∧
    (get_subtree rootlessTree (some "X") none).nodes = [] := by
  constructor <;>
    simp [get_subtree, subtreeLoop_nil, subtreeLoop_cons, rootlessTree,
      List.lookup]

/-- C10 (amended): for every `CachedTree` and every `root_url` argument that
is neither a key of the nodes map nor the tree's root, `get_subtree`
silently substitutes the tree's own root as the subtree start (it never
raises — the embedding is a total function); the result is non-empty
whenever the tree's root itself resolves in the nodes map, but is the empty
tree when it does not. -/
theorem c10_subtree_fallback_amended (tree : CachedTree) (s : String)
    (maxDepth : Option Nat) (hkey : tree.nodes.lookup s = none)
    (hroot : s ≠ tree.root) :
    (get_subtree tree (some s) maxDepth).root = tree.root ∧
    (∀ node, tree.nodes.lookup tree.root = some node →
      (get_subtree tree (some s) maxDepth).nodes ≠ []) := by
  have hstart : (if (tree.nodes.lookup (if s = "" then tree.root else s)) = none ∧
      (if s = "" then tree.root else s) ≠ tree.root then tree.root
      else (if s = "" then tree.root else s)) = tree.root := by
    by_cases hs : s = ""
    · rw [if_pos hs]
      rw [if_neg (by simp)]
    · rw [if_neg hs, if_pos ⟨hkey, hroot⟩]
  constructor
  · show (if (tree.nodes.lookup (if s = "" then tree.root else s)) = none ∧
        (if s = "" then tree.root else s) ≠ tree.root then tree.root
        else (if s = "" then tree.root else s)) = tree.root
    exact hstart
  · intro node hnode
    show subtreeLoop tree maxDepth
        [((if (tree.nodes.lookup (if s = "" then tree.root else s)) = none ∧
            (if s = "" then tree.root else s) ≠ tree.root then tree.root
            else (if s = "" then tree.root else s)), 0)] [] [] ≠ []
    rw [hstart]
    have hsome : (tree.nodes.lookup tree.root).isSome := by
      rw [hnode]
      rfl
    have hpos : 1 ≤ (subtreeLoop tree maxDepth [(tree.root, 0)] [] []).length := by
      rw [subtreeLoop_cons, if_neg (List.not_mem_nil _), dif_pos hsome]
      by_cases hl : (match maxDepth with
          | none => false
          | some d => decide (d ≤ 0)) = true
      · rw [if_pos hl]
        exact le_trans (by simp) (subtreeLoop_length_mono tree maxDepth _ _ _)
      · rw [if_neg hl]
        exact le_trans (by simp) (subtreeLoop_length_mono tree maxDepth _ _ _)
    intro hnil
    rw [hnil] at hpos
    simp at hpos

/-- C10 (witness): `c10_subtree_fallback_amended` on a tree whose root is
present — the unknown start id `X` is replaced by the root `R` and the
result is non-empty. -/
theorem c10_subtree_fallback_amended_witness :
    (get_subtree rootedTree (some "X") none).root = "R" ∧
    (get_subtree rootedTree (some "X") none).nodes ≠ [] := by
  have h := c10_subtree_fallback_amended rootedTree "X" none (by decide)
    (by decide)
  exact ⟨h.1, h.2 { url := "R", name := "R", children := [] } (by decide)⟩

/-! ### Root resolution (C8) -/

theorem dictInsert_lookup_self {α : Type} (k : String) (v : α) :
    ∀ (l : List (String × α)), (dictInsert l k v).lookup k = some v := by
  intro l
  induction l with
  | nil => simp [dictInsert, List.lookup]
  | cons e rest ih =>
    obtain ⟨k', v'⟩ := e
    unfold dictInsert
    by_cases hk : k' = k
    · rw [if_pos hk, List.lookup, beq_self_eq_true]
    · rw [if_neg hk, List.lookup, beq_false_of_ne (fun h => hk h.symm)]
      exact ih

theorem dictInsert_lookup_ne {α : Type} (k : String) (v : α) (k' : String)
    (h : k' ≠ k) :
    ∀ (l : List (String × α)), (dictInsert l k v).lookup k' = l.lookup k' := by
  intro l
  induction l with
  | nil => simp [dictInsert, List.lookup, beq_false_of_ne h]
  | cons e rest ih =>
    obtain ⟨k'', v''⟩ := e
    unfold dictInsert
    by_cases hk : k'' = k
    · subst hk
      rw [if_pos rfl, List.lookup, List.lookup, beq_false_of_ne h]
    · rw [if_neg hk, List.lookup, List.lookup]
      cases k' == k''
      · exact ih
      · rfl

theorem mem_foldl_append {β : Type} (x : β) :
    ∀ (l : List (String × List β)) (init : List β),
      (x ∈ l.foldl (fun acc e => acc ++ e.2) init ↔
        x ∈ init ∨ ∃ e ∈ l, x ∈ e.2) := by
  intro l
  induction l with
  | nil => simp
  | cons e rest ih =>
    intro init
    rw [List.foldl_cons, ih (init ++ e.2)]
    simp only [List.mem_append, List.mem_cons]
    constructor
    · rintro ((h | h) | ⟨e', he', hx⟩)
      · exact Or.inl h
      · exact Or.inr ⟨e, Or.inl rfl, h⟩
      · exact Or.inr ⟨e', Or.inr he', hx⟩
    · rintro (h | ⟨e', (rfl | he'), hx⟩)
      · exact Or.inl (Or.inl h)
      · exact Or.inl (Or.inr hx)
      · exact Or.inr ⟨e', he', hx⟩

/-- The claim's notion, stated in its own words: the node keys that never
appear as a child in the subclass edge map. -/
def neverChildKeys (nodes : List (String × OntologyClass))
    (edges : List (String × List String)) : List String :=
  (nodes.map (fun e => e.1)).filter (fun u => decide (∀ e ∈ edges, u ∉ e.2))

theorem build_rootCandidates_eq (nodes : List (String × OntologyClass))
    (edges : List (String × List String)) :
    ((nodes.map (fun e => e.1)).filter (fun url =>
        decide (url ∉ edges.foldl (fun acc e => acc ++ e.2) []))) =
      neverChildKeys nodes edges := by
  unfold neverChildKeys
  apply List.filter_congr
  intro u _
  simp only [decide_eq_decide]
  rw [mem_foldl_append]
  simp

/-- C8 (counterexample): on the cyclic input `A ⊑ B`, `B ⊑ A` no class is
parentless, the virtual root is synthesized — but it is not the sole node:
the graph keeps `A`, `B` and the added `owl:Thing`. -/
theorem c8_sole_node_counterexample :
    (build_dag
        [{ url := "A", name := "A", parents := [ParentRef.withIri "B"] },
         { url := "B", name := "B", parents := [ParentRef.withIri "A"] }]).root =
      thingIri ∧
    (build_dag
        [{ url := "A", name := "A", parents := [ParentRef.withIri "B"] },
         { url := "B", name := "B", parents := [ParentRef.withIri "A"] }]).nodes.map
        (fun e => e.1) = ["A", "B", thingIri] ∧
    ¬ (build_dag
        [{ url := "A", name := "A", parents := [ParentRef.withIri "B"] },
         { url := "B", name := "B", parents := [ParentRef.withIri "A"] }]).nodes.length
        = 1 := by
  refine ⟨?_, ?_, by decide⟩ <;> decide

/-- C8 (amended): after graph construction, if exactly one class never
appears as a child it becomes the root (nodes and edges untouched); if more
than one such class exists, a single virtual root (`owl:Thing`) is
synthesized whose direct children are exactly those parentless classes; if
no such class exists (degenerate or cyclic input), the virtual root is
synthesized with no children attached by the resolution step — the existing
class nodes remain, so it is not in general the sole node. -/
theorem c8_root_resolution_amended (classes : List RawClass) :
    (∀ r, neverChildKeys (classes.foldl buildDagStep ([], [])).1
        (classes.foldl buildDagStep ([], [])).2 = [r] →
      (build_dag classes).root = r ∧
      (build_dag classes).nodes = (classes.foldl buildDagStep ([], [])).1 ∧
      (build_dag classes).edges_subclassof =
        (classes.foldl buildDagStep ([], [])).2) ∧
    (2 ≤ (neverChildKeys (classes.foldl buildDagStep ([], [])).1
        (classes.foldl buildDagStep ([], [])).2).length →
      (build_dag classes).root = thingIri ∧
      (build_dag classes).edges_subclassof.lookup thingIri =
        some (neverChildKeys (classes.foldl buildDagStep ([], [])).1
          (classes.foldl buildDagStep ([], [])).2) ∧
      (build_dag classes).nodes.lookup thingIri = some thingNode ∧
      ∀ k ∈ ((classes.foldl buildDagStep ([], [])).1).map (fun e => e.1),
        ((build_dag classes).nodes.lookup k).isSome) ∧
    (neverChildKeys (classes.foldl buildDagStep ([], [])).1
        (classes.foldl buildDagStep ([], [])).2 = [] →
      (build_dag classes).root = thingIri ∧
      (build_dag classes).edges_subclassof =
        (classes.foldl buildDagStep ([], [])).2 ∧
      ((build_dag classes).nodes.lookup thingIri).isSome ∧
      ∀ k ∈ ((classes.foldl buildDagStep ([], [])).1).map (fun e => e.1),
        ((build_dag classes).nodes.lookup k).isSome) := by
  have hrc := build_rootCandidates_eq (classes.foldl buildDagStep ([], [])).1
    (classes.foldl buildDagStep ([], [])).2
  rcases hc : neverChildKeys (classes.foldl buildDagStep ([], [])).1
      (classes.foldl buildDagStep ([], [])).2 with _ | ⟨r1, _ | ⟨r2, rs⟩⟩
  · -- no parentless class
    refine ⟨fun r h => absurd h (by simp), fun h => absurd h (by simp), fun _ => ?_⟩
    refine ⟨?_, ?_, ?_, ?_⟩
    · show (build_dag classes).root = thingIri
      simp only [build_dag]
      rw [hrc, hc]
    · simp only [build_dag]
      rw [hrc, hc]
    · simp only [build_dag]
      rw [hrc, hc]
      by_cases ht : (((classes.foldl buildDagStep ([], [])).1).lookup thingIri).isSome
      · show (if (((classes.foldl buildDagStep ([], [])).1).lookup thingIri).isSome
            then (classes.foldl buildDagStep ([], [])).1
            else dictInsert (classes.foldl buildDagStep ([], [])).1 thingIri
              thingNode).lookup thingIri |>.isSome
        rw [if_pos ht]
        exact ht
      · show (if (((classes.foldl buildDagStep ([], [])).1).lookup thingIri).isSome
            then (classes.foldl buildDagStep ([], [])).1
            else dictInsert (classes.foldl buildDagStep ([], [])).1 thingIri
              thingNode).lookup thingIri |>.isSome
        rw [if_neg ht, dictInsert_lookup_self]
        rfl
    · intro k hk
      simp only [build_dag]
      rw [hrc, hc]
      by_cases ht : (((classes.foldl buildDagStep ([], [])).1).lookup thingIri).isSome
      · show (if (((classes.foldl buildDagStep ([], [])).1).lookup thingIri).isSome
            then (classes.foldl buildDagStep ([], [])).1
            else dictInsert (classes.foldl buildDagStep ([], [])).1 thingIri
              thingNode).lookup k |>.isSome
        rw [if_pos ht]
        exact lookup_isSome_of_mem_keys hk
      · show (if (((classes.foldl buildDagStep ([], [])).1).lookup thingIri).isSome
            then (classes.foldl buildDagStep ([], [])).1
            else dictInsert (classes.foldl buildDagStep ([], [])).1 thingIri
              thingNode).lookup k |>.isSome
        rw [if_neg ht]
        by_cases hkt : k = thingIri
        · subst hkt
          rw [dictInsert_lookup_self]
          rfl
        · rw [dictInsert_lookup_ne _ _ _ hkt]
          exact lookup_isSome_of_mem_keys hk
  · -- exactly one parentless class
    refine ⟨fun r h => ?_, fun h => absurd h (by simp), fun h => absurd h (by simp)⟩
    injection h with h1 h2
    subst h1
    refine ⟨?_, ?_, ?_⟩ <;>
      · simp only [build_dag]
        rw [hrc, hc]
  · -- at least two parentless classes
    refine ⟨fun r h => by simp at h,
      fun _ => ⟨?_, ?_, ?_, ?_⟩, fun h => by simp at h⟩
    · simp only [build_dag]
      rw [hrc, hc]
    · simp only [build_dag]
      rw [hrc, hc]
      exact dictInsert_lookup_self _ _ _
    · simp only [build_dag]
      rw [hrc, hc]
      exact dictInsert_lookup_self _ _ _
    · intro k hk
      simp only [build_dag]
      rw [hrc, hc]
      show ((dictInsert (classes.foldl buildDagStep ([], [])).1 thingIri
          thingNode).lookup k).isSome
      by_cases hkt : k = thingIri
      · subst hkt
        rw [dictInsert_lookup_self]
        rfl
      · rw [dictInsert_lookup_ne _ _ _ hkt]
        exact lookup_isSome_of_mem_keys hk

/-! ### Ensemble decision making (C2, C7) -/

theorem runAgent_eq (agentCall : Nat → List String → Except String LLMResponseDetail)
    (st : AgentLoopState) (p : Nat × List String) :
    runAgent agentCall st p =
      { agent_results := st.agent_results ++ [agentRecord agentCall p]
        votes_per_class :=
          (agentRecord agentCall p).voted_classes.foldl bumpVote st.votes_per_class
        failed_agents := st.failed_agents +
          (if (agentRecord agentCall p).status = "failed" then 1 else 0) } := by
  obtain ⟨pid, pcls⟩ := p
  unfold runAgent agentRecord
  by_cases h0 : pcls = []
  · simp [h0]
  · rw [if_neg h0, if_neg h0]
    rcases hcall : agentCall pid pcls with e | resp
    · simp
    · by_cases hans : resp.answer ≠ "" ∧ resp.answer ≠ "-"
      · simp [hans]
      · simp [hans]

theorem bumpVote_votesCount (votes : List (String × Nat)) (x c : String) :
    votesCount (bumpVote votes x) c =
      votesCount votes c + (if c = x then 1 else 0) := by
  unfold bumpVote votesCount
  rcases hl : votes.lookup x with _ | n
  · by_cases hcx : c = x
    · subst hcx
      rw [lookup_append_right hl]
      simp [List.lookup, hl]
    · rcases hc : votes.lookup c with _ | m
      · rw [lookup_append_right hc]
        simp [List.lookup, beq_false_of_ne hcx, hcx, hc]
      · rw [lookup_append_left hc]
        simp [hcx, hc]
  · by_cases hcx : c = x
    · subst hcx
      rw [dictInsert_lookup_self]
      simp [hl]
    · rw [dictInsert_lookup_ne _ _ _ hcx]
      simp [hcx]

theorem foldl_bumpVote_votesCount (c : String) :
    ∀ (vs : List String) (votes : List (String × Nat)),
      votesCount (vs.foldl bumpVote votes) c = votesCount votes c + vs.count c := by
  intro vs
  induction vs with
  | nil =>
    intro votes
    simp
  | cons x vs ih =>
    intro votes
    rw [List.foldl_cons, ih, bumpVote_votesCount, List.count_cons]
    simp only [beq_iff_eq]
    by_cases hcx : c = x
    · subst hcx
      omega
    · rw [if_neg hcx, if_neg (fun hh => hcx hh.symm)]
      omega

theorem foldAgents_results
    (agentCall : Nat → List String → Except String LLMResponseDetail) :
    ∀ (L : List (Nat × List String)) (st : AgentLoopState),
      (L.foldl (runAgent agentCall) st).agent_results =
        st.agent_results ++ L.map (agentRecord agentCall) := by
  intro L
  induction L with
  | nil =>
    intro st
    simp
  | cons p L ih =>
    intro st
    rw [List.foldl_cons, ih, runAgent_eq]
    simp

theorem foldAgents_votes
    (agentCall : Nat → List String → Except String LLMResponseDetail) (c : String) :
    ∀ (L : List (Nat × List String)) (st : AgentLoopState),
      votesCount ((L.foldl (runAgent agentCall) st).votes_per_class) c =
        votesCount st.votes_per_class c +
          (L.map (fun p => (agentRecord agentCall p).voted_classes.count c)).sum := by
  intro L
  induction L with
  | nil =>
    intro st
    simp
  | cons p L ih =>
    intro st
    rw [List.foldl_cons, ih, runAgent_eq]
    simp only [List.map_cons, List.sum_cons]
    rw [foldl_bumpVote_votesCount]
    omega

theorem foldAgents_failed
    (agentCall : Nat → List String → Except String LLMResponseDetail) :
    ∀ (L : List (Nat × List String)) (st : AgentLoopState),
      (L.foldl (runAgent agentCall) st).failed_agents =
        st.failed_agents +
          (L.map (fun p =>
            if (agentRecord agentCall p).status = "failed" then 1 else 0)).sum := by
  intro L
  induction L with
  | nil =>
    intro st
    simp
  | cons p L ih =>
    intro st
    rw [List.foldl_cons, ih, runAgent_eq]
    simp only [List.map_cons, List.sum_cons]
    omega

theorem agentRecord_assigned
    (agentCall : Nat → List String → Except String LLMResponseDetail)
    (p : Nat × List String) :
    (agentRecord agentCall p).assigned_classes = p.2 := by
  unfold agentRecord
  split
  · rfl
  · split
    · split
      · rfl
      · rfl
    · rfl

theorem agentRecord_voted_sub
    (agentCall : Nat → List String → Except String LLMResponseDetail)
    (p : Nat × List String) :
    ∀ v ∈ (agentRecord agentCall p).voted_classes, v ∈ p.2 := by
  intro v hv
  unfold agentRecord at hv
  split at hv
  · simp at hv
  · split at hv
    · split at hv
      · have hc := (List.mem_filter.mp hv).2
        exact List.elem_iff.mp hc
      · simp at hv
    · simp at hv

theorem enumFrom_countP (q : List String → Bool) :
    ∀ (k : Nat) (l : List (List String)),
      (List.enumFrom k l).countP (fun p => q p.2) = l.countP q := by
  intro k l
  induction l generalizing k with
  | nil => rfl
  | cons x l ih =>
    simp only [List.enumFrom, List.countP_cons, ih]

/-- Characterization of `select_edm` for a non-empty candidate list: the
recorded agents are `agentRecord` of the assignment, `total_agents` is the
assignment count, and a candidate is selected iff it was seen and its vote
occurrences reach the consensus threshold. -/
theorem select_edm_spec (opts : EDMOptions) (sample : Nat → List Nat)
    (agentCall : Nat → List String → Except String LLMResponseDetail)
    (candidates : List String) (h : candidates ≠ []) :
    edmAgents (select_edm opts sample agentCall candidates) =
      (List.enumFrom 1 (assign_classes_to_agents candidates
          (max opts.agents_per_class
            (candidates.length * opts.agents_per_class /
              opts.classes_per_agent + 1))
          opts.agents_per_class sample)).map (agentRecord agentCall) ∧
    ((select_edm opts sample agentCall candidates).edm_result.map
        (fun E => E.total_agents)) =
      some (assign_classes_to_agents candidates
          (max opts.agents_per_class
            (candidates.length * opts.agents_per_class /
              opts.classes_per_agent + 1))
          opts.agents_per_class sample).length ∧
    ∀ c, (c ∈ (select_edm opts sample agentCall candidates).selected ↔
      c ∈ candidates ∧
      0 < seenBy (select_edm opts sample agentCall candidates) c ∧
      opts.consensus_threshold ≤
        ((votesFor (select_edm opts sample agentCall candidates) c : ℚ) /
          (seenBy (select_edm opts sample agentCall candidates) c : ℚ)) ∧
      0 < votesFor (select_edm opts sample agentCall candidates) c) := by
  have hagents : edmAgents (select_edm opts sample agentCall candidates) =
      (List.enumFrom 1 (assign_classes_to_agents candidates
          (max opts.agents_per_class
            (candidates.length * opts.agents_per_class /
              opts.classes_per_agent + 1))
          opts.agents_per_class sample)).map (agentRecord agentCall) := by
    show edmAgents (select_edm opts sample agentCall candidates) = _
    simp only [select_edm, if_neg h, edmAgents]
    rw [foldAgents_results]
    rfl
  have hseen : ∀ c, seenBy (select_edm opts sample agentCall candidates) c =
      (assign_classes_to_agents candidates
          (max opts.agents_per_class
            (candidates.length * opts.agents_per_class /
              opts.classes_per_agent + 1))
          opts.agents_per_class sample).countP (fun l => l.contains c) := by
    intro c
    unfold seenBy
    rw [hagents, List.countP_map]
    rw [show ((fun a => a.assigned_classes.contains c) ∘ agentRecord agentCall) =
        (fun p => ((agentRecord agentCall p).assigned_classes.contains c)) from rfl]
    rw [List.countP_congr (fun p _ => by rw [agentRecord_assigned])]
    exact enumFrom_countP (fun l => l.contains c) 1 _
  have hvotes : ∀ c, votesFor (select_edm opts sample agentCall candidates) c =
      votesCount (((List.enumFrom 1 (assign_classes_to_agents candidates
          (max opts.agents_per_class
            (candidates.length * opts.agents_per_class /
              opts.classes_per_agent + 1))
          opts.agents_per_class sample)).foldl (runAgent agentCall)
          { agent_results := [], votes_per_class := [],
            failed_agents := 0 }).votes_per_class) c := by
    intro c
    unfold votesFor
    rw [hagents, foldAgents_votes]
    simp [votesCount, List.map_map, Function.comp]
    rfl
  refine ⟨hagents, ?_, ?_⟩
  · simp only [select_edm, if_neg h]
    rfl
  · intro c
    rw [hseen, hvotes]
    simp only [select_edm, if_neg h, List.mem_filter, decide_eq_true_eq]
    unfold votesCount
    tauto

/-- Votes outside an agent's own assignment are discarded: every recorded
vote of every agent lies in that agent's assigned classes. -/
theorem select_edm_votes_discarded (opts : EDMOptions) (sample : Nat → List Nat)
    (agentCall : Nat → List String → Except String LLMResponseDetail)
    (candidates : List String) :
    ∀ a ∈ edmAgents (select_edm opts sample agentCall candidates),
      ∀ v ∈ a.voted_classes, v ∈ a.assigned_classes := by
  by_cases h : candidates = []
  · subst h
    intro a ha
    simp [select_edm, edmAgents] at ha
  · intro a ha
    rw [(select_edm_spec opts sample agentCall candidates h).1] at ha
    obtain ⟨p, _, rfl⟩ := List.mem_map.mp ha
    rw [agentRecord_assigned]
    exact agentRecord_voted_sub agentCall p

/-- C2 (counterexample): the code tallies `votes_per_class[cls] += 1` once
per occurrence of the class in an agent's parsed answer, not once per agent.
With candidate `X` assigned to all 3 agents, agent 1 answering `"X, X, X"`
and agents 2 and 3 abstaining, only 1 of the 3 agents that saw `X` voted for
it — under the claimed per-agent rule `1/3 < 0.8` means `X` is rejected —
yet `select_edm` at threshold `0.8` selects `X`, because the three
occurrences count as 3 votes out of 3 agents. -/
theorem c2_duplicate_vote_counterexample :
    seenBy (select_edm {} c2Sample c2CallsDup ["X"]) "X" = 3 ∧
    specVotesFor (select_edm {} c2Sample c2CallsDup ["X"]) "X" = 1 ∧
    ¬((0.8 : ℚ) ≤
      (specVotesFor (select_edm {} c2Sample c2CallsDup ["X"]) "X" : ℚ) /
        (seenBy (select_edm {} c2Sample c2CallsDup ["X"]) "X" : ℚ)) ∧
    "X" ∈ (select_edm {} c2Sample c2CallsDup ["X"]).selected := by
  have hspec := select_edm_spec {} c2Sample c2CallsDup ["X"] (by decide)
  have hseen3 : seenBy (select_edm {} c2Sample c2CallsDup ["X"]) "X" = 3 := by
    unfold seenBy
    rw [hspec.1]
    rfl
  have hvotes3 : votesFor (select_edm {} c2Sample c2CallsDup ["X"]) "X" = 3 := by
    unfold votesFor
    rw [hspec.1]
    rfl
  have hsv1 : specVotesFor (select_edm {} c2Sample c2CallsDup ["X"]) "X" = 1 := by
    unfold specVotesFor
    rw [hspec.1]
    rfl
  refine ⟨hseen3, hsv1, ?_, ?_⟩
  · rw [hsv1, hseen3]
    norm_num
  · exact (hspec.2.2 "X").mpr ⟨by decide, by rw [hseen3]; norm_num,
      by rw [hseen3, hvotes3]; norm_num, by rw [hvotes3]; norm_num⟩

/-- C2 (amended): ensemble acceptance rule with votes counted per
occurrence.  For every candidate assigned to at least one agent, the
candidate is accepted iff (occurrence votes among the agents that saw it) /
seen_by ≥ consensus_threshold and votes > 0, where every recorded vote lies
within the voting agent's own assignment (votes outside it are discarded);
a candidate voted for once each by exactly 2 of the 3 agents that saw it is
still not selected at threshold 0.8. -/
theorem c2_acceptance_rule_amended (opts : EDMOptions) (sample : Nat → List Nat)
    (agentCall : Nat → List String → Except String LLMResponseDetail)
    (candidates : List String) (h : candidates ≠ [])
    (c : String) (hc : c ∈ candidates)
    (hseen0 : 0 < seenBy (select_edm opts sample agentCall candidates) c) :
    (c ∈ (select_edm opts sample agentCall candidates).selected ↔
      opts.consensus_threshold ≤
        ((votesFor (select_edm opts sample agentCall candidates) c : ℚ) /
          (seenBy (select_edm opts sample agentCall candidates) c : ℚ)) ∧
      0 < votesFor (select_edm opts sample agentCall candidates) c) ∧
    (∀ a ∈ edmAgents (select_edm opts sample agentCall candidates),
      ∀ v ∈ a.voted_classes, v ∈ a.assigned_classes) := by
  constructor
  · rw [(select_edm_spec opts sample agentCall candidates h).2.2 c]
    tauto
  · exact select_edm_votes_discarded opts sample agentCall candidates

/-- C2 (witness): `c2_acceptance_rule_amended` on the 2-of-3 run with the
default options. -/
theorem c2_acceptance_rule_amended_witness :
    (["X"] : List String) ≠ [] ∧ "X" ∈ (["X"] : List String) ∧
    0 < seenBy (select_edm {} c2Sample c2Calls2of3 ["X"]) "X" ∧
    (("X" ∈ (select_edm {} c2Sample c2Calls2of3 ["X"]).selected ↔
        (0.8 : ℚ) ≤
          ((votesFor (select_edm {} c2Sample c2Calls2of3 ["X"]) "X" : ℚ) /
            (seenBy (select_edm {} c2Sample c2Calls2of3 ["X"]) "X" : ℚ)) ∧
        0 < votesFor (select_edm {} c2Sample c2Calls2of3 ["X"]) "X") ∧
      (∀ a ∈ edmAgents (select_edm {} c2Sample c2Calls2of3 ["X"]),
        ∀ v ∈ a.voted_classes, v ∈ a.assigned_classes)) :=
  ⟨by decide, by decide, by decide,
    c2_acceptance_rule_amended {} c2Sample c2Calls2of3 ["X"] (by decide) "X"
      (by decide) (by decide)⟩

/-! Assignment structure (`_assign_classes_to_agents`, C7). -/

theorem getD_set_self : ∀ (l : List (List String)) (a : Nat) (v : List String),
    a < l.length → (l.set a v).getD a [] = v := by
  intro l
  induction l with
  | nil =>
    intro a v h
    simp at h
  | cons x xs ih =>
    intro a v h
    cases a with
    | zero => rfl
    | succ a =>
      rw [List.set_cons_succ, List.getD_cons_succ]
      exact ih a v (by simpa using h)

theorem getD_set_ne : ∀ (l : List (List String)) (a b : Nat) (v : List String),
    a ≠ b → (l.set a v).getD b [] = l.getD b [] := by
  intro l
  induction l with
  | nil =>
    intro a b v _
    rfl
  | cons x xs ih =>
    intro a b v hab
    cases a with
    | zero =>
      cases b with
      | zero => exact absurd rfl hab
      | succ b => rfl
    | succ a =>
      cases b with
      | zero => rfl
      | succ b =>
        rw [List.set_cons_succ, List.getD_cons_succ, List.getD_cons_succ]
        exact ih a b v (fun hh => hab (by rw [hh]))

theorem getD_replicate_nil : ∀ (n a : Nat),
    (List.replicate n ([] : List String)).getD a [] = [] := by
  intro n
  induction n with
  | zero =>
    intro a
    cases a <;> rfl
  | succ n ih =>
    intro a
    cases a with
    | zero => rfl
    | succ a =>
      rw [List.replicate_succ, List.getD_cons_succ]
      exact ih a

theorem assignToAgents_length (cls : String) :
    ∀ (idxs : List Nat) (acc : List (List String)),
      (assignToAgents acc cls idxs).length = acc.length := by
  intro idxs
  induction idxs with
  | nil =>
    intro acc
    rfl
  | cons x xs ih =>
    intro acc
    have hstep : assignToAgents acc cls (x :: xs) =
        assignToAgents (acc.set x ((acc.getD x []) ++ [cls])) cls xs := rfl
    rw [hstep, ih, List.length_set]

theorem assignLoop_length (n apc : Nat) (sample : Nat → List Nat) :
    ∀ (clsList : List String) (i : Nat) (acc : List (List String)),
      (assignLoop n apc sample clsList i acc).length = acc.length := by
  intro clsList
  induction clsList with
  | nil =>
    intro i acc
    rfl
  | cons x xs ih =>
    intro i acc
    simp only [assignLoop]
    rw [ih, assignToAgents_length]

/-- Membership in an agent's list after one `assignToAgents` pass: the class
`c` is there iff it already was, or it is the inserted class and the agent
index was drawn (and is in range). -/
theorem assignToAgents_getD_mem (cls c : String) :
    ∀ (idxs : List Nat) (acc : List (List String)) (a : Nat),
      (c ∈ (assignToAgents acc cls idxs).getD a [] ↔
        c ∈ acc.getD a [] ∨ (c = cls ∧ a ∈ idxs ∧ a < acc.length)) := by
  intro idxs
  induction idxs with
  | nil =>
    intro acc a
    simp [assignToAgents]
  | cons x xs ih =>
    intro acc a
    have hstep : assignToAgents acc cls (x :: xs) =
        assignToAgents (acc.set x ((acc.getD x []) ++ [cls])) cls xs := rfl
    rw [hstep, ih, List.length_set]
    by_cases hax : x = a
    · subst hax
      by_cases hlt : x < acc.length
      · rw [getD_set_self _ _ _ hlt]
        simp only [List.mem_append, List.mem_cons, List.not_mem_nil, or_false]
        constructor
        · rintro ((hm | hm) | hm)
          · exact Or.inl hm
          · exact Or.inr ⟨hm, Or.inl trivial, hlt⟩
          · exact Or.inr ⟨hm.1, Or.inr hm.2.1, hm.2.2⟩
        · rintro (hm | ⟨hm, _, _⟩)
          · exact Or.inl (Or.inl hm)
          · exact Or.inl (Or.inr hm)
      · rw [List.set_eq_of_length_le (Nat.le_of_not_lt hlt)]
        simp only [List.mem_cons]
        constructor
        · rintro (hm | hm)
          · exact Or.inl hm
          · exact Or.inr ⟨hm.1, Or.inr hm.2.1, hm.2.2⟩
        · rintro (hm | ⟨hm, hm2 | hm2, hm3⟩)
          · exact Or.inl hm
          · exact absurd hm3 hlt
          · exact Or.inr ⟨hm, hm2, hm3⟩
    · rw [getD_set_ne _ _ _ _ hax]
      have hxa : ¬a = x := fun hh => hax hh.symm
      simp only [List.mem_cons]
      constructor
      · rintro (hm | hm)
        · exact Or.inl hm
        · exact Or.inr ⟨hm.1, Or.inr hm.2.1, hm.2.2⟩
      · rintro (hm | ⟨hm, hm2 | hm2, hm3⟩)
        · exact Or.inl hm
        · exact absurd hm2 hxa
        · exact Or.inr ⟨hm, hm2, hm3⟩

theorem assignLoop_append (n apc : Nat) (sample : Nat → List Nat) :
    ∀ (l1 l2 : List String) (i : Nat) (acc : List (List String)),
      assignLoop n apc sample (l1 ++ l2) i acc =
        assignLoop n apc sample l2 (i + l1.length)
          (assignLoop n apc sample l1 i acc) := by
  intro l1
  induction l1 with
  | nil =>
    intro l2 i acc
    simp [assignLoop]
  | cons x l1 ih =>
    intro l2 i acc
    have harith : i + (x :: l1).length = i + 1 + l1.length := by
      simp only [List.length_cons]
      omega
    have hstep : assignLoop n apc sample ((x :: l1) ++ l2) i acc =
        assignLoop n apc sample (l1 ++ l2) (i + 1)
          (assignToAgents acc x
            (if n < apc then List.range n else sample i)) := rfl
    have hstep2 : assignLoop n apc sample (x :: l1) i acc =
        assignLoop n apc sample l1 (i + 1)
          (assignToAgents acc x
            (if n < apc then List.range n else sample i)) := rfl
    rw [hstep, ih, hstep2, harith]

/-- Iterations whose class differs from `c` never add `c` to any agent. -/
theorem assignLoop_not_mem_getD (n apc : Nat) (sample : Nat → List Nat)
    (c : String) :
    ∀ (clsList : List String), c ∉ clsList →
      ∀ (i : Nat) (acc : List (List String)) (a : Nat),
        (c ∈ (assignLoop n apc sample clsList i acc).getD a [] ↔
          c ∈ acc.getD a []) := by
  intro clsList
  induction clsList with
  | nil =>
    intro _ i acc a
    exact Iff.rfl
  | cons x xs ih =>
    intro hnm i acc a
    have hcx : c ≠ x := fun hh => hnm (hh ▸ List.mem_cons_self x xs)
    have hxs : c ∉ xs := fun hh => hnm (List.mem_cons_of_mem _ hh)
    simp only [assignLoop]
    rw [ih hxs, assignToAgents_getD_mem]
    simp [hcx]

theorem countP_contains_range (c : String) :
    ∀ (l : List (List String)),
      l.countP (fun x => x.contains c) =
        (List.range l.length).countP (fun a => (l.getD a []).contains c) := by
  intro l
  induction l with
  | nil => rfl
  | cons x xs ih =>
    rw [List.countP_cons, List.length_cons, List.range_succ_eq_map,
      List.countP_cons, List.countP_map]
    rw [show ((fun a => ((x :: xs).getD a []).contains c) ∘ Nat.succ) =
        (fun a => (xs.getD a []).contains c) from rfl]
    rw [← ih]
    rfl

/-- A duplicate-free set of agent indices below `n` hits exactly its own
cardinality of the agents `0..n-1`. -/
theorem countP_mem_range (s : List Nat) (n : Nat) (hs : s.Nodup)
    (hsub : ∀ a ∈ s, a < n) :
    (List.range n).countP (fun a => s.contains a) = s.length := by
  rw [List.countP_eq_length_filter]
  have hperm : ((List.range n).filter (fun a => s.contains a)).Perm s := by
    rw [List.perm_ext_iff_of_nodup
      (List.Nodup.filter _ (List.nodup_range n)) hs]
    intro a
    rw [List.mem_filter, List.mem_range, List.elem_iff]
    exact ⟨fun hh => hh.2, fun hh => ⟨hsub a hh, hh⟩⟩
  exact hperm.length_eq

theorem assign_classes_to_agents_length (classes : List String) (n apc : Nat)
    (sample : Nat → List Nat) (hn : 0 < n) :
    (assign_classes_to_agents classes n apc sample).length = n := by
  have hlen : (assignLoop n apc sample classes 0 (List.replicate n [])).length
      = n := by
    rw [assignLoop_length]
    exact List.length_replicate n []
  have hne : assignLoop n apc sample classes 0 (List.replicate n []) ≠ [] := by
    intro hh
    rw [hh] at hlen
    simp at hlen
    omega
  simp only [assign_classes_to_agents]
  rw [if_neg hne]
  exact hlen

/-- The per-candidate assignment count of `_assign_classes_to_agents`: a
candidate occurring once in the class list ends up on exactly
`sample`-many agents — all `n` agents when `n < apc` (the small-ensemble
branch draws every agent), otherwise the `apc` drawn agents — provided the
random draws are valid `random.sample` outputs. -/
theorem assign_countP (pre post : List String) (c : String) (n apc : Nat)
    (sample : Nat → List Nat) (hn : 0 < n)
    (hpre : c ∉ pre) (hpost : c ∉ post)
    (hsample : ∀ i, (sample i).Nodup ∧ (sample i).length = apc ∧
      ∀ a ∈ sample i, a < n) :
    (assign_classes_to_agents (pre ++ c :: post) n apc sample).countP
      (fun l => l.contains c) = if n < apc then n else apc := by
  have hne : assignLoop n apc sample (pre ++ c :: post) 0
      (List.replicate n []) ≠ [] := by
    intro hh
    have hl := assignLoop_length n apc sample (pre ++ c :: post) 0
      (List.replicate n [])
    rw [hh] at hl
    simp [List.length_replicate] at hl
    omega
  simp only [assign_classes_to_agents]
  rw [if_neg hne, assignLoop_append]
  simp only [assignLoop, Nat.zero_add]
  set accPre := assignLoop n apc sample pre 0 (List.replicate n [])
    with haccPre
  set chosen := (if n < apc then List.range n else sample pre.length)
    with hchosen
  set final := assignLoop n apc sample post (pre.length + 1)
    (assignToAgents accPre c chosen) with hfinal
  have haccPreLen : accPre.length = n := by
    rw [haccPre, assignLoop_length]
    exact List.length_replicate n []
  have hfinalLen : final.length = n := by
    rw [hfinal, assignLoop_length, assignToAgents_length, haccPreLen]
  have hmem : ∀ a : Nat, (c ∈ final.getD a [] ↔ a ∈ chosen ∧ a < n) := by
    intro a
    rw [hfinal, assignLoop_not_mem_getD n apc sample c post hpost,
      assignToAgents_getD_mem, haccPre,
      assignLoop_not_mem_getD n apc sample c pre hpre,
      getD_replicate_nil]
    rw [← haccPre, haccPreLen]
    simp
  have hcongr : ∀ a ∈ List.range n,
      ((final.getD a []).contains c = true ↔ chosen.contains a = true) := by
    intro a ha
    rw [List.elem_iff, List.elem_iff, hmem a]
    have ha' : a < n := List.mem_range.mp ha
    simp [ha']
  rw [countP_contains_range, hfinalLen, List.countP_congr hcongr]
  rw [hchosen]
  by_cases hb : n < apc
  · simp only [if_pos hb]
    rw [countP_mem_range (List.range n) n (List.nodup_range n)
      (fun a ha => List.mem_range.mp ha)]
    exact List.length_range n
  · simp only [if_neg hb]
    obtain ⟨hnd, hlen, hlt⟩ := hsample pre.length
    rw [countP_mem_range _ n hnd hlt]
    exact hlen

/-- C7: ensemble sizing and assignment.  For every ensemble invocation with
a non-empty duplicate-free candidate list and valid `random.sample` draws
(duplicate-free, of size `agents_per_class`, within range),
`total_agents = max(agents_per_class, N * agents_per_class / classes_per_agent + 1)`
and every candidate is assigned to exactly `agents_per_class` agents (the
`num_agents < agents_per_class` fallback is unreachable here since
`num_agents` is a `max` with `agents_per_class`).  With `N = 10`,
`classes_per_agent = 30`, `agents_per_class = 3` this gives 3 agents, each
candidate assigned to all 3. -/
theorem c7_ensemble_sizing (opts : EDMOptions) (sample : Nat → List Nat)
    (agentCall : Nat → List String → Except String LLMResponseDetail)
    (candidates : List String) (h : candidates ≠ [])
    (hnodup : candidates.Nodup)
    (hsample : ∀ i, (sample i).Nodup ∧
      (sample i).length = opts.agents_per_class ∧
      ∀ a ∈ sample i, a < max opts.agents_per_class
        (candidates.length * opts.agents_per_class /
          opts.classes_per_agent + 1)) :
    ((select_edm opts sample agentCall candidates).edm_result.map
        (fun E => E.total_agents)) =
      some (max opts.agents_per_class
        (candidates.length * opts.agents_per_class /
          opts.classes_per_agent + 1)) ∧
    ∀ c ∈ candidates,
      seenBy (select_edm opts sample agentCall candidates) c =
        opts.agents_per_class := by
  have hn : 0 < max opts.agents_per_class
      (candidates.length * opts.agents_per_class /
        opts.classes_per_agent + 1) :=
    Nat.lt_of_lt_of_le (Nat.succ_pos _) (le_max_right _ _)
  have hspec := select_edm_spec opts sample agentCall candidates h
  constructor
  · rw [hspec.2.1, assign_classes_to_agents_length _ _ _ _ hn]
  · intro c hc
    have hseenEq : seenBy (select_edm opts sample agentCall candidates) c =
        (assign_classes_to_agents candidates
          (max opts.agents_per_class
            (candidates.length * opts.agents_per_class /
              opts.classes_per_agent + 1))
          opts.agents_per_class sample).countP (fun l => l.contains c) := by
      unfold seenBy
      rw [hspec.1, List.countP_map]
      rw [show ((fun a => a.assigned_classes.contains c) ∘
          agentRecord agentCall) =
          (fun p => ((agentRecord agentCall p).assigned_classes.contains c))
          from rfl]
      rw [List.countP_congr (fun p _ => by rw [agentRecord_assigned])]
      exact enumFrom_countP (fun l => l.contains c) 1 _
    rw [hseenEq]
    obtain ⟨pre, post, hsplit⟩ := List.append_of_mem hc
    have hcpre : c ∉ pre := by
      intro hcp
      have hdisj := List.disjoint_of_nodup_append (hsplit ▸ hnodup)
      exact hdisj hcp (List.mem_cons_self c post)
    have hcpost : c ∉ post := by
      have h2 := (List.nodup_append.mp (hsplit ▸ hnodup)).2.1
      exact (List.nodup_cons.mp h2).1
    rw [hsplit]
    rw [hsplit] at hsample hn
    rw [assign_countP pre post c _ _ sample hn hcpre hcpost hsample]
    rw [if_neg (Nat.not_lt.mpr (le_max_left _ _))]

/-- C7 (witness): `c7_ensemble_sizing` with 10 distinct candidates, the
default options (30 classes per agent, 3 agents per class) and the constant
draw `[0, 1, 2]`. -/
theorem c7_ensemble_sizing_witness :
    c7Candidates ≠ [] ∧ c7Candidates.Nodup ∧
    (∀ i, (c2Sample i).Nodup ∧
      (c2Sample i).length = ({} : EDMOptions).agents_per_class ∧
      ∀ a ∈ c2Sample i, a < max ({} : EDMOptions).agents_per_class
        (c7Candidates.length * ({} : EDMOptions).agents_per_class /
          ({} : EDMOptions).classes_per_agent + 1)) ∧
    (((select_edm {} c2Sample c2Calls2of3 c7Candidates).edm_result.map
        (fun E => E.total_agents)) = some 3 ∧
      ∀ c ∈ c7Candidates,
        seenBy (select_edm {} c2Sample c2Calls2of3 c7Candidates) c = 3) :=
  have hs : ∀ i : Nat, (c2Sample i).Nodup ∧
      (c2Sample i).length = ({} : EDMOptions).agents_per_class ∧
      ∀ a ∈ c2Sample i, a < max ({} : EDMOptions).agents_per_class
        (c7Candidates.length * ({} : EDMOptions).agents_per_class /
          ({} : EDMOptions).classes_per_agent + 1) := fun _ =>
    (by decide : ([0, 1, 2] : List Nat).Nodup ∧
      ([0, 1, 2] : List Nat).length = ({} : EDMOptions).agents_per_class ∧
      ∀ a ∈ ([0, 1, 2] : List Nat),
        a < max ({} : EDMOptions).agents_per_class
          (c7Candidates.length * ({} : EDMOptions).agents_per_class /
            ({} : EDMOptions).classes_per_agent + 1))
  ⟨by decide, by decide, hs,
    c7_ensemble_sizing {} c2Sample c2Calls2of3 c7Candidates (by decide)
      (by decide) hs⟩

/-- C8 (witness): `c8_root_resolution_amended` on two parentless classes
`D`, `E` — the virtual root is created with direct children exactly
`[D, E]`. -/
theorem c8_root_resolution_amended_witness :
    (build_dag [{ url := "D", name := "D" }, { url := "E", name := "E" }]).root =
      thingIri ∧
    (build_dag [{ url := "D", name := "D" },
        { url := "E", name := "E" }]).edges_subclassof.lookup thingIri =
      some ["D", "E"] := by
  have h := (c8_root_resolution_amended
    [{ url := "D", name := "D" }, { url := "E", name := "E" }]).2.1 (by decide)
  refine ⟨h.1, ?_⟩
  have h2 := h.2.1
  rw [show neverChildKeys ([{ url := "D", name := "D" },
      { url := "E", name := "E" }].foldl buildDagStep ([], [])).1
      ([{ url := "D", name := "D" },
        { url := "E", name := "E" }].foldl buildDagStep ([], [])).2 = ["D", "E"]
    from by decide] at h2
  exact h2

end Saed
